import Mathlib

/-
Shallow embedding of the chunking core of the repository
(src/Chapter_05_Memory/ingest.py and src/Chapter_05_Memory/models.py).

Python strings are modelled as `List Char`; Python `str` helpers
(`strip`, `split`, `in`, slicing) are defined below with Python's
semantics.  Method names keep the source names with the leading
underscore dropped.  The `while` loop of `_split_by_character` does not
terminate for every configuration (see the theorems about it), so it and
everything calling it is written with explicit fuel and returns
`Option`: `none` means the Python code would still be running after the
given number of loop iterations.
-/

/-- Python `str.isspace` on the ASCII whitespace actually produced by the
pipeline (`str.strip()` with no argument strips these). -/
def isPySpace (c : Char) : Bool :=
  c = ' ' || c = '\t' || c = '\n' || c = '\r' || c = '\x0b' || c = '\x0c'

/-- Python `text.strip()`. -/
def pyStrip (t : List Char) : List Char :=
  ((t.dropWhile isPySpace).reverse.dropWhile isPySpace).reverse

/-- Python `sep in text` (substring containment). -/
def containsSub (sep : List Char) : List Char → Bool
  | [] => sep.isPrefixOf []
  | c :: rest => sep.isPrefixOf (c :: rest) || containsSub sep rest

/-- Python `text.split(sep)` for a non-empty `sep`, fuelled (each step
consumes at least one character, so `fuel = text.length` is enough; the
fuel-exhausted arm is unreachable then). -/
def pySplitF (sep : List Char) : Nat → List Char → List (List Char)
  | _, [] => [[]]
  | 0, t => [t]
  | fuel + 1, c :: rest =>
    if sep ≠ [] ∧ sep.isPrefixOf (c :: rest) then
      [] :: pySplitF sep fuel (rest.drop (sep.length - 1))
    else
      match pySplitF sep fuel rest with
      | [] => [[c]]
      | s :: ss => (c :: s) :: ss

def pySplit (sep t : List Char) : List (List Char) := pySplitF sep t.length t

/-- `sep.join(parts)`, used to state reconstruction facts about `pySplit`. -/
def joinSep (sep : List Char) : List (List Char) → List Char
  | [] => []
  | [s] => s
  | s :: ss => s ++ sep ++ joinSep sep ss

/-- Python `t[a:b]` for `0 ≤ a ≤ b`. -/
def pySlice (t : List Char) (a b : Nat) : List Char := (t.drop a).take (b - a)

/-- `RecursiveCharacterTextSplitter.DEFAULT_SEPARATORS` (ingest.py 26-36). -/
def DEFAULT_SEPARATORS : List (List Char) :=
  [['\n', '\n'], ['\n'], ['.', ' '], ['?', ' '], ['!', ' '], [';', ' '],
   [',', ' '], [' '], []]

/-- The state of a constructed `RecursiveCharacterTextSplitter`. -/
structure Splitter where
  chunk_size : Nat
  chunk_overlap : Nat
  separators : List (List Char)
deriving DecidableEq

/-- `RecursiveCharacterTextSplitter.__init__` (ingest.py 38-54).  The body
only stores the three fields (`self.separators = separators or
self.DEFAULT_SEPARATORS`, Python `or`: `None` and `[]` both fall back to
the default); it contains no `raise`, so it is modelled as always
returning `Except.ok`. -/
def splitter_init (chunk_size chunk_overlap : Nat)
    (separators : Option (List (List Char))) : Except String Splitter :=
  Except.ok
    { chunk_size := chunk_size, chunk_overlap := chunk_overlap,
      separators :=
        match separators with
        | none => DEFAULT_SEPARATORS
        | some l => if l.isEmpty then DEFAULT_SEPARATORS else l }

/-- `overlap_text = prev_chunk[-self.chunk_overlap:] if len(prev_chunk) >
self.chunk_overlap else prev_chunk` (ingest.py 144). -/
def overlapText (cfg : Splitter) (prev : List Char) : List Char :=
  if cfg.chunk_overlap < prev.length then
    prev.drop (prev.length - cfg.chunk_overlap)
  else prev

/-- The loop body of `_apply_overlap` (ingest.py 139-150) for one pair
`(chunks[i-1], chunks[i])` of the incoming list. -/
def overlapStep (cfg : Splitter) (prev curr : List Char) : List Char :=
  if (overlapText cfg prev).length + curr.length ≤ cfg.chunk_size then
    overlapText cfg prev ++ [' '] ++ curr
  else curr

/-- `RecursiveCharacterTextSplitter._apply_overlap` (ingest.py 132-152).
The Python loop reads `chunks[i-1]` from the argument list, i.e. the
previous chunk before any overlap was glued onto it. -/
def apply_overlap (cfg : Splitter) (chunks : List (List Char)) : List (List Char) :=
  if chunks.length ≤ 1 ∨ cfg.chunk_overlap = 0 then chunks
  else
    match chunks with
    | [] => []
    | c :: rest => c :: List.zipWith (overlapStep cfg) (c :: rest) rest

/-- The `while start < len(text)` loop of `_split_by_character`
(ingest.py 125-128), fuelled: `none` means the loop is still running
after `fuel` iterations. -/
def sbcF (cfg : Splitter) (t : List Char) : Nat → Nat → Option (List (List Char))
  | 0, start => if t.length ≤ start then some [] else none
  | fuel + 1, start =>
    if t.length ≤ start then some []
    else
      let e := min (start + cfg.chunk_size) t.length
      match sbcF cfg t fuel (e - cfg.chunk_overlap) with
      | none => none
      | some rest => some (pyStrip (pySlice t start e) :: rest)

/-- `RecursiveCharacterTextSplitter._split_by_character` (ingest.py
120-130), with fuel `t.length + 1` (enough whenever the loop terminates
at all, see the termination theorems below); the final comprehension
drops empty chunks. -/
def split_by_character (cfg : Splitter) (t : List Char) : Option (List (List Char)) :=
  (sbcF cfg t (t.length + 1) 0).map (List.filter (fun c => !c.isEmpty))

/-- `[text.strip()] if text.strip() else []`, also the final
`if current_chunk.strip(): chunks.append(current_chunk.strip())` flush. -/
def baseStrip (t : List Char) : List (List Char) :=
  if (pyStrip t).isEmpty then [] else [pyStrip t]

/-- `test_chunk = current_chunk + (separator if current_chunk else "") +
split` (ingest.py 94). -/
def testChunk (current sep split : List Char) : List Char :=
  current ++ (if current.isEmpty then [] else sep) ++ split

/-- `if current_chunk: chunks.append(current_chunk.strip())` (ingest.py
99-100). -/
def flushChunk (current : List Char) : List (List Char) :=
  if current.isEmpty then [] else [pyStrip current]

/-- The `for split in splits` merge loop of `_split_text_recursive`
(ingest.py 92-110).  `recur` is `_split_text_recursive(split,
separators[i+1:])`; the returned pair is (chunks appended so far,
final `current_chunk`). -/
def mergeLoop (cfg : Splitter) (recur : List Char → Option (List (List Char)))
    (sep : List Char) :
    List Char → List (List Char) → Option (List (List Char) × List Char)
  | current, [] => some ([], current)
  | current, split :: splits =>
    if (testChunk current sep split).length ≤ cfg.chunk_size then
      mergeLoop cfg recur sep (testChunk current sep split) splits
    else if cfg.chunk_size < split.length then
      match recur split, mergeLoop cfg recur sep [] splits with
      | some subs, some (cs, cur) => some (flushChunk current ++ subs ++ cs, cur)
      | _, _ => none
    else
      match mergeLoop cfg recur sep split splits with
      | some (cs, cur) => some (flushChunk current ++ cs, cur)
      | none => none

/-- `RecursiveCharacterTextSplitter._split_text_recursive` (ingest.py
68-118).  The `for i, separator in enumerate(separators)` loop is the
recursion on `seps`; the base-size test is re-checked on entering each
loop step, which is sound because `text` is unchanged while the loop
scans for its separator.  Fuel `seps.length + 1` covers the recursion
depth, which strictly decreases along the separator list. -/
def splitRecF (cfg : Splitter) : Nat → List (List Char) → List Char →
    Option (List (List Char))
  | 0, _, _ => none
  | fuel + 1, seps, text =>
    if text.length ≤ cfg.chunk_size then some (baseStrip text)
    else
      match seps with
      | [] => some (baseStrip text)
      | sep :: rest =>
        if sep.isEmpty then split_by_character cfg text
        else if containsSub sep text then
          match mergeLoop cfg (fun frag => splitRecF cfg fuel rest frag) sep []
              (pySplit sep text) with
          | none => none
          | some (cs, cur) => some (apply_overlap cfg (cs ++ baseStrip cur))
        else splitRecF cfg fuel rest text

def split_text_recursive (cfg : Splitter) (text : List Char)
    (seps : List (List Char)) : Option (List (List Char)) :=
  splitRecF cfg (seps.length + 1) seps text

/-- `RecursiveCharacterTextSplitter.split_text` (ingest.py 56-66). -/
def split_text (cfg : Splitter) (text : List Char) : Option (List (List Char)) :=
  split_text_recursive cfg text cfg.separators

/-
Specification-side definitions used for the refinement comparisons.
These follow the words of the spec (sections 4.1, 4.2, 9), to be compared
with the source-derived definitions above.
-/

/-- Spec model ("merge fully, then stitch overlap"): the same recursive
splitting and greedy merging as `splitRecF`, but with no overlap applied
anywhere inside the pass. -/
def splitNoOvF (cfg : Splitter) : Nat → List (List Char) → List Char →
    Option (List (List Char))
  | 0, _, _ => none
  | fuel + 1, seps, text =>
    if text.length ≤ cfg.chunk_size then some (baseStrip text)
    else
      match seps with
      | [] => some (baseStrip text)
      | sep :: rest =>
        if sep.isEmpty then split_by_character cfg text
        else if containsSub sep text then
          match mergeLoop cfg (fun frag => splitNoOvF cfg fuel rest frag) sep []
              (pySplit sep text) with
          | none => none
          | some (cs, cur) => some (cs ++ baseStrip cur)
        else splitNoOvF cfg fuel rest text

/-- Spec model of `split_text` (sections 4.1-4.2): complete all recursive
splitting and greedy merging with no overlap, then apply the overlap
stitcher exactly once to the final merged sequence. -/
def splitThenStitchOnce (cfg : Splitter) (text : List Char) :
    Option (List (List Char)) :=
  (splitNoOvF cfg (cfg.separators.length + 1) cfg.separators text).map
    (apply_overlap cfg)

/-- The overlap rule in the words of the amended C5 claim: take the last
`min(overlapBound, len(prev))` characters of the previous post-merge
chunk; prefix them (joined by a single space) onto the current chunk if
the overlap text plus the current chunk — not counting the joining
space — stays within `chunk_size`, else leave the chunk unmodified. -/
def overlapTextAmended (cfg : Splitter) (prev : List Char) : List Char :=
  prev.drop (prev.length - min cfg.chunk_overlap prev.length)

def overlapStepAmended (cfg : Splitter) (prev curr : List Char) : List Char :=
  if (overlapTextAmended cfg prev).length + curr.length ≤ cfg.chunk_size then
    overlapTextAmended cfg prev ++ [' '] ++ curr
  else curr

/-- Convenience for concrete inputs. -/
def s2l (s : String) : List Char := s.data

/-
Data model (src/Chapter_05_Memory/models.py) and the ingestion pipeline
(src/Chapter_05_Memory/ingest.py, class IngestionPipeline).

`generate_id` draws a fresh uuid4 and `DocumentMetadata.created_at`
defaults to `datetime.now()`; both are ambient effects of one run, so
they are passed in explicitly: `gen i` is the uuid drawn for the `i`-th
Document constructed by the call, `now` the clock reading.  Python dicts
are modelled as association lists with Python's update semantics (later
duplicate keys overwrite in place). -/

inductive PyVal
  | int : Int → PyVal
  | str : String → PyVal
deriving DecidableEq

/-- `DocumentMetadata` (models.py 19-53); `created_at` is kept as its
ISO serialisation. -/
structure DocumentMetadata where
  source : String
  chunk_index : Nat
  total_chunks : Nat
  created_at : String
  page_number : Option Nat
  extra : List (String × PyVal)
deriving DecidableEq

/-- `Document` (models.py 56-76). -/
structure Document where
  id : String
  content : List Char
  metadata : DocumentMetadata
deriving DecidableEq

/-- Python dict update: overwrite in place if the key is present, else
append. -/
def dictUpsert (d : List (String × PyVal)) (k : String) (v : PyVal) :
    List (String × PyVal) :=
  if d.any (fun e => e.1 = k) then d.map (fun e => if e.1 = k then (k, v) else e)
  else d ++ [(k, v)]

/-- `\x7b**d, **es\x7d`: fold the entries of `es` over `d`. -/
def dictMerge (d es : List (String × PyVal)) : List (String × PyVal) :=
  es.foldl (fun acc e => dictUpsert acc e.1 e.2) d

def dictGet (d : List (String × PyVal)) (k : String) : Option PyVal :=
  (d.find? (fun e => e.1 = k)).map (fun e => e.2)

/-- Python `self.metadata.page_number or 0` (also sends page `0` to `0`). -/
def pageOr0 : Option Nat → Int
  | none => 0
  | some n => n

/-- The metadata dict built by `Document.to_chroma_format` (models.py
78-91): five fixed keys in order, then `**self.metadata.extra` spread
last. -/
def chroma_metadata (m : DocumentMetadata) : List (String × PyVal) :=
  dictMerge
    [("source", PyVal.str m.source), ("chunk_index", PyVal.int m.chunk_index),
     ("total_chunks", PyVal.int m.total_chunks),
     ("created_at", PyVal.str m.created_at),
     ("page_number", PyVal.int (pageOr0 m.page_number))]
    m.extra

/-- `Document.to_chroma_format` (models.py 78-91). -/
def to_chroma_format (d : Document) : String × List Char × List (String × PyVal) :=
  (d.id, d.content, chroma_metadata d.metadata)

/-- `re.sub(r'\r\n', '\n', text)`: leftmost, non-overlapping. -/
def subCrlf : List Char → List Char
  | [] => []
  | [c] => [c]
  | c :: d :: rest =>
    if c = '\r' ∧ d = '\n' then '\n' :: subCrlf rest
    else c :: subCrlf (d :: rest)

/-- `re.sub(r'\t', '    ', text)`. -/
def subTab (t : List Char) : List Char :=
  t.flatMap (fun c => if c = '\t' then [' ', ' ', ' ', ' '] else [c])

/-- `re.sub(r' +', ' ', text)`: a maximal run of `n ≥ 1` spaces becomes
one space.  `spcGo n` scans with `n` pending spaces. -/
def spcFlush (n : Nat) : List Char := List.replicate (min n 1) ' '

def spcGo : Nat → List Char → List Char
  | n, [] => spcFlush n
  | n, c :: rest =>
    if c = ' ' then spcGo (n + 1) rest else spcFlush n ++ c :: spcGo 0 rest

def subSpaces (t : List Char) : List Char := spcGo 0 t

/-- `re.sub(r'\n\x7b3,\x7d', '\n\n', text)`: a maximal run of `n`
newlines becomes `min n 2` newlines. -/
def nlFlush (n : Nat) : List Char := List.replicate (min n 2) '\n'

def nlGo : Nat → List Char → List Char
  | n, [] => nlFlush n
  | n, c :: rest =>
    if c = '\n' then nlGo (n + 1) rest else nlFlush n ++ c :: nlGo 0 rest

def subNewlines (t : List Char) : List Char := nlGo 0 t

/-- `IngestionPipeline._clean_text` (ingest.py 416-432). -/
def clean_text (t : List Char) : List Char :=
  pyStrip (subNewlines (subSpaces (subTab (subCrlf t))))

/-- Python `enumerate`. -/
def enumerate {α : Type} (l : List α) : List (Nat × α) :=
  (List.range l.length).zip l

/-- `IngestionPipeline.ingest_text` (ingest.py 186-234). -/
def ingest_text (cfg : Splitter) (gen : Nat → String) (now : String)
    (text : List Char) (source : String)
    (extra_metadata : List (String × PyVal)) : Option (List Document) :=
  if (clean_text text).isEmpty then some []
  else
    match split_text cfg (clean_text text) with
    | none => none
    | some chunks =>
      if chunks.isEmpty then some []
      else
        some ((enumerate chunks).map (fun p =>
          { id := gen p.1, content := p.2,
            metadata :=
              { source := source, chunk_index := p.1,
                total_chunks := chunks.length, created_at := now,
                page_number := none, extra := extra_metadata } }))

/-- The first pass of `ingest_pdf` (ingest.py 321-337): collect
`(chunk, page_num, page_chunk_idx)` triples over the pages, skipping
pages whose raw text strips to empty. -/
def collectPdfChunks (cfg : Splitter) :
    List (Nat × List Char) → Option (List (List Char × Nat × Nat))
  | [] => some []
  | (page_num, page_text) :: rest =>
    if (pyStrip page_text).isEmpty then collectPdfChunks cfg rest
    else
      match split_text cfg (clean_text page_text) with
      | none => none
      | some chunks =>
        match collectPdfChunks cfg rest with
        | none => none
        | some acc =>
          some ((enumerate chunks).map (fun p => (p.2, page_num, p.1)) ++ acc)

/-- `enumerate(reader.pages, start=1)`: pages paired with 1-based page
numbers.  PDF parsing itself is an external collaborator; the extracted
per-page texts are the input. -/
def pagesEnum (pages : List (List Char)) : List (Nat × List Char) :=
  ((List.range pages.length).map (fun i => i + 1)).zip pages

/-- One Document of the second pass of `ingest_pdf` (ingest.py 344-363),
built from the enumerated `(chunk_text, page_num, page_chunk_idx)`
triple `p.2` at global index `p.1`; the extra dict lists the five fixed
keys then spreads `extra_metadata` last. -/
def pdfBuild (gen : Nat → String) (now fn : String) (fs : Int)
    (total_pages N : Nat) (em : List (String × PyVal))
    (p : Nat × (List Char × Nat × Nat)) : Document :=
  { id := gen p.1, content := p.2.1,
    metadata :=
      { source := fn, chunk_index := p.1, total_chunks := N,
        created_at := now, page_number := some p.2.2.1,
        extra :=
          dictMerge
            [("filename", PyVal.str fn), ("extension", PyVal.str ".pdf"),
             ("file_size_bytes", PyVal.int fs),
             ("total_pages", PyVal.int total_pages),
             ("page_chunk_index", PyVal.int p.2.2.2)]
            em } }

/-- `IngestionPipeline.ingest_pdf` (ingest.py 286-365), second pass:
`total_chunks` is the final count over all pages. -/
def ingest_pdf (cfg : Splitter) (gen : Nat → String) (now : String)
    (pages : List (List Char)) (file_name : String) (file_size : Int)
    (extra_metadata : List (String × PyVal)) : Option (List Document) :=
  match collectPdfChunks cfg (pagesEnum pages) with
  | none => none
  | some all_chunks =>
    if all_chunks.isEmpty then some []
    else
      some ((enumerate all_chunks).map
        (pdfBuild gen now file_name file_size pages.length all_chunks.length
          extra_metadata))

/-
Helper lemmas shared by several claims.
-/

theorem overlapText_eq_amended (cfg : Splitter) (prev : List Char) :
    overlapText cfg prev = overlapTextAmended cfg prev := by
  unfold overlapText overlapTextAmended
  rcases Nat.lt_or_ge cfg.chunk_overlap prev.length with h | h
  · rw [if_pos h, Nat.min_eq_left (Nat.le_of_lt h)]
  · rw [if_neg (Nat.not_lt.mpr h), Nat.min_eq_right h, Nat.sub_self, List.drop_zero]

theorem overlapStep_eq_amended (cfg : Splitter) (prev curr : List Char) :
    overlapStep cfg prev curr = overlapStepAmended cfg prev curr := by
  unfold overlapStep overlapStepAmended
  rw [overlapText_eq_amended]

theorem apply_overlap_zero (cfg : Splitter) (h : cfg.chunk_overlap = 0)
    (chunks : List (List Char)) : apply_overlap cfg chunks = chunks := by
  unfold apply_overlap
  rw [if_pos (Or.inr h)]

/-
C2.  The character-level fallback `_split_by_character` never terminates
when `chunk_overlap ≥ 1` and the text is non-empty: the loop variable
`start` is always reset to `min(start + chunk_size, len(text)) -
chunk_overlap ≤ len(text) - 1`, so `start < len(text)` holds at every
iteration and the `while` loop never exits, contradicting the claimed
`ceil(L/(s-o))`-step termination (the intended advance `s - o` is not
what the code computes once the window is clamped at the tail).
-/

/-- C2: for every chunk_overlap ≥ 1 and every position strictly inside
the text, the `_split_by_character` loop is still running after any
number of iterations (the model returns `none` for every fuel). -/
theorem c2_character_fallback_diverges (cfg : Splitter) (t : List Char)
    (fuel start : Nat) (ho : 1 ≤ cfg.chunk_overlap) (hs : start < t.length) :
    sbcF cfg t fuel start = none := by
  induction fuel generalizing start with
  | zero => simp [sbcF, Nat.not_le.mpr hs]
  | succ n ih =>
    have hguard : ¬ t.length ≤ start := Nat.not_le.mpr hs
    have hnext : min (start + cfg.chunk_size) t.length - cfg.chunk_overlap
        < t.length := by
      have h1 : min (start + cfg.chunk_size) t.length ≤ t.length :=
        Nat.min_le_right _ _
      omega
    simp [sbcF, hguard, ih _ hnext]

/-- C2 witness: the default-shaped configuration `chunk_size = 5,
chunk_overlap = 2` on the ten-character separator-free text
`"abcdefghij"` (the claim predicts termination in `ceil(10/3) = 4`
steps, the code never exits). -/
theorem c2_character_fallback_diverges_witness :
    sbcF ⟨5, 2, DEFAULT_SEPARATORS⟩ (s2l "abcdefghij") 1000 0 = none :=
  c2_character_fallback_diverges _ _ 1000 0 (by decide) (by decide)

/-
C6.  `RecursiveCharacterTextSplitter.__init__` performs no validation at
all: it just stores `chunk_size`, `chunk_overlap` and the separator
list, so an invalid configuration (`sizeBound ≤ 0` or `overlapBound ≥
sizeBound`) is accepted silently instead of raising a configuration
error.
-/

/-- C6 counterexample: constructing with `chunk_size = 0 ≤ 0` and
`chunk_overlap = 5 ≥ chunk_size` succeeds (returns `ok`), so no fatal
configuration error is raised eagerly at construction time. -/
theorem c6_counterexample :
    splitter_init 0 5 none = Except.ok ⟨0, 5, DEFAULT_SEPARATORS⟩ := rfl

/-- C6 amended: construction never fails for any configuration, valid or
not; `__init__` only stores the fields (and no configuration error
exists anywhere to be raised later during splitting either). -/
theorem c6_init_never_raises (s o : Nat) (seps : Option (List (List Char))) :
    ∃ cfg : Splitter, splitter_init s o seps = Except.ok cfg :=
  ⟨_, rfl⟩

/-
C5.  The overlap stitcher checks `len(overlap_text) + len(curr_chunk) <=
chunk_size` but then appends `overlap_text + " " + curr_chunk`, whose
length is one larger, so the condition does not count the joining space:
a chunk can be modified although the prefixed result exceeds
`chunk_size` (by exactly one character).
-/

/-- C5 counterexample: with `chunk_size = 5, chunk_overlap = 2`, the
chunk `"fgh"` after `"de"` is prefixed to `"de fgh"` of length `6 >
5`, although the claim says a chunk is modified only when the prefixed
result (overlap text plus space plus chunk) does not exceed the size
bound. -/
theorem c5_counterexample :
    apply_overlap ⟨5, 2, DEFAULT_SEPARATORS⟩ [s2l "de", s2l "fgh"] =
      [s2l "de", s2l "de fgh"] ∧
    ¬ (s2l "de fgh").length ≤ 5 ∧ s2l "de fgh" ≠ s2l "fgh" := by
  refine ⟨by decide, by decide, by decide⟩

/-- C5 amended: for at least two chunks and positive overlap, each chunk
after the first is prefixed with the last `min(overlapBound,
len(previous))` characters of the immediately preceding incoming chunk
joined by a single space exactly when overlap text plus chunk — not
counting the joining space — stays within `chunk_size` (so a modified
chunk can reach `chunk_size + 1`); otherwise it is left unmodified, and
the first chunk is always left unmodified. -/
theorem c5_amended (cfg : Splitter) (c : List Char) (rest : List (List Char))
    (ho : 0 < cfg.chunk_overlap) (hr : rest ≠ []) :
    apply_overlap cfg (c :: rest) =
      c :: List.zipWith (overlapStepAmended cfg) (c :: rest) rest := by
  have hstep : overlapStep cfg = overlapStepAmended cfg :=
    funext fun p => funext fun q => overlapStep_eq_amended cfg p q
  have hguard : ¬ ((c :: rest).length ≤ 1 ∨ cfg.chunk_overlap = 0) := by
    rcases rest with _ | ⟨r, rs⟩
    · exact absurd rfl hr
    · rintro (h | h)
      · simp at h
      · omega
  unfold apply_overlap
  rw [if_neg hguard, hstep]

/-- C5 amended, witness at `chunk_size = 5, chunk_overlap = 2` on the
chunks `["ab", "cd"]`. -/
theorem c5_amended_witness :
    apply_overlap ⟨5, 2, DEFAULT_SEPARATORS⟩ [s2l "ab", s2l "cd"] =
      s2l "ab" :: List.zipWith (overlapStepAmended ⟨5, 2, DEFAULT_SEPARATORS⟩)
        [s2l "ab", s2l "cd"] [s2l "cd"] :=
  c5_amended ⟨5, 2, DEFAULT_SEPARATORS⟩ (s2l "ab") [s2l "cd"] (by decide)
    (by decide)

/-
C1.  Size bound on the chunks of `split_text`.
-/

theorem pyStrip_sublist (t : List Char) : (pyStrip t).Sublist t := by
  unfold pyStrip
  have h1 : ((t.dropWhile isPySpace).reverse.dropWhile isPySpace).Sublist
      (t.dropWhile isPySpace).reverse := List.dropWhile_sublist isPySpace
  have h2 := h1.reverse
  rw [List.reverse_reverse] at h2
  exact h2.trans (List.dropWhile_sublist isPySpace)

theorem pyStrip_length_le (t : List Char) : (pyStrip t).length ≤ t.length :=
  (pyStrip_sublist t).length_le

theorem baseStrip_bound (t : List Char) :
    ∀ c ∈ baseStrip t, c.length ≤ t.length := by
  intro c hc
  unfold baseStrip at hc
  split at hc
  · simp at hc
  · rcases List.mem_singleton.mp hc with rfl
    exact pyStrip_length_le t

theorem sbcF_bound (cfg : Splitter) (t : List Char) :
    ∀ fuel start l, sbcF cfg t fuel start = some l →
      ∀ c ∈ l, c.length ≤ cfg.chunk_size := by
  intro fuel
  induction fuel with
  | zero =>
    intro start l h c hc
    unfold sbcF at h
    split at h
    · cases h; simp at hc
    · cases h
  | succ n ih =>
    intro start l h c hc
    unfold sbcF at h
    split at h
    · cases h; simp at hc
    · revert h
      cases hrec : sbcF cfg t n
          (min (start + cfg.chunk_size) t.length - cfg.chunk_overlap) with
      | none => intro h; simp [hrec] at h
      | some rest =>
        intro h
        simp only [hrec] at h
        cases h
        rcases List.mem_cons.mp hc with rfl | hmem
        · calc (pyStrip (pySlice t start (min (start + cfg.chunk_size) t.length))).length
              ≤ (pySlice t start (min (start + cfg.chunk_size) t.length)).length :=
                pyStrip_length_le _
            _ ≤ min (start + cfg.chunk_size) t.length - start := by
                unfold pySlice; exact List.length_take_le _ _
            _ ≤ cfg.chunk_size := by
                have := Nat.min_le_left (start + cfg.chunk_size) t.length
                omega
        · exact ih _ rest hrec c hmem

theorem split_by_character_bound (cfg : Splitter) (t : List Char)
    (l : List (List Char)) (h : split_by_character cfg t = some l) :
    ∀ c ∈ l, c.length ≤ cfg.chunk_size := by
  unfold split_by_character at h
  cases hrec : sbcF cfg t (t.length + 1) 0 with
  | none => rw [hrec] at h; cases h
  | some raw =>
    rw [hrec] at h
    cases h
    intro c hc
    exact sbcF_bound cfg t _ 0 raw hrec c (List.mem_of_mem_filter hc)

theorem overlapStep_bound (cfg : Splitter) (prev curr : List Char)
    (hc : curr.length ≤ cfg.chunk_size + 1) :
    (overlapStep cfg prev curr).length ≤ cfg.chunk_size + 1 := by
  unfold overlapStep
  split
  · simp only [List.length_append, List.length_singleton]
    omega
  · exact hc

theorem zipWith_overlap_bound (cfg : Splitter) :
    ∀ (as bs : List (List Char)), (∀ b ∈ bs, b.length ≤ cfg.chunk_size + 1) →
      ∀ c ∈ List.zipWith (overlapStep cfg) as bs, c.length ≤ cfg.chunk_size + 1 := by
  intro as
  induction as with
  | nil => intro bs _ c hc; simp at hc
  | cons a as ih =>
    intro bs hb c hc
    cases bs with
    | nil => simp at hc
    | cons b bs =>
      rcases List.mem_cons.mp hc with rfl | hmem
      · exact overlapStep_bound cfg a b (hb b (List.mem_cons_self b bs))
      · exact ih bs (fun x hx => hb x (List.mem_cons_of_mem b hx)) c hmem

theorem apply_overlap_bound (cfg : Splitter) (chunks : List (List Char))
    (h : ∀ c ∈ chunks, c.length ≤ cfg.chunk_size + 1) :
    ∀ c ∈ apply_overlap cfg chunks, c.length ≤ cfg.chunk_size + 1 := by
  unfold apply_overlap
  split
  · exact h
  · match chunks, h with
    | [], _ => intro c hc; simp at hc
    | c0 :: rest, h =>
      intro c hc
      rcases List.mem_cons.mp hc with rfl | hmem
      · exact h c (List.mem_cons_self c rest)
      · exact zipWith_overlap_bound cfg (c0 :: rest) rest
          (fun x hx => h x (List.mem_cons_of_mem c0 hx)) c hmem

theorem flushChunk_bound (current : List Char) :
    ∀ c ∈ flushChunk current, c.length ≤ current.length := by
  intro c hc
  unfold flushChunk at hc
  split at hc
  · simp at hc
  · rcases List.mem_singleton.mp hc with rfl
    exact pyStrip_length_le current

theorem mergeLoop_bound (cfg : Splitter)
    (recur : List Char → Option (List (List Char))) (sep : List Char)
    (hrec : ∀ frag r, recur frag = some r →
      ∀ c ∈ r, c.length ≤ cfg.chunk_size + 1) :
    ∀ splits current cs cur, current.length ≤ cfg.chunk_size →
      mergeLoop cfg recur sep current splits = some (cs, cur) →
      (∀ c ∈ cs, c.length ≤ cfg.chunk_size + 1) ∧
        cur.length ≤ cfg.chunk_size := by
  intro splits
  induction splits with
  | nil =>
    intro current cs cur hcur h
    unfold mergeLoop at h
    cases h
    exact ⟨by intro c hc; simp at hc, hcur⟩
  | cons split splits ih =>
    intro current cs cur hcur h
    have hflush : ∀ c ∈ flushChunk current, c.length ≤ cfg.chunk_size + 1 :=
      fun c hc => le_trans (flushChunk_bound current c hc) (by omega)
    unfold mergeLoop at h
    split at h
    · exact ih _ cs cur (by assumption) h
    · split at h
      · -- single split too large: recurse, then continue with empty current
        revert h
        cases hsub : recur split with
        | none => intro h; simp [hsub] at h
        | some subs =>
          cases hrest : mergeLoop cfg recur sep [] splits with
          | none => intro h; simp [hsub, hrest] at h
          | some p =>
            obtain ⟨cs2, cur2⟩ := p
            intro h
            simp only [hsub, hrest] at h
            cases h
            obtain ⟨hcs, hcur2⟩ := ih [] _ _ (by simp) hrest
            refine ⟨?_, hcur2⟩
            intro c hc
            rcases List.mem_append.mp hc with hc1 | hc2
            · rcases List.mem_append.mp hc1 with hc3 | hc4
              · exact hflush c hc3
              · exact hrec split subs hsub c hc4
            · exact hcs c hc2
      · revert h
        cases hrest : mergeLoop cfg recur sep split splits with
        | none => intro h; simp [hrest] at h
        | some p =>
          obtain ⟨cs2, cur2⟩ := p
          intro h
          simp only [hrest] at h
          cases h
          have hsplit : split.length ≤ cfg.chunk_size := by omega
          obtain ⟨hcs, hcur2⟩ := ih split _ _ hsplit hrest
          refine ⟨?_, hcur2⟩
          intro c hc
          rcases List.mem_append.mp hc with hc1 | hc2
          · exact hflush c hc1
          · exact hcs c hc2

theorem splitRecF_bound (cfg : Splitter) :
    ∀ fuel seps text chunks, [] ∈ seps →
      splitRecF cfg fuel seps text = some chunks →
      ∀ c ∈ chunks, c.length ≤ cfg.chunk_size + 1 := by
  intro fuel
  induction fuel with
  | zero => intro seps text chunks _ h; cases h
  | succ n ih =>
    intro seps text chunks hmem h
    unfold splitRecF at h
    split at h
    · cases h
      intro c hc
      exact le_trans (baseStrip_bound text c hc) (by omega)
    · cases seps with
      | nil => simp at hmem
      | cons sep rest =>
        simp only [] at h
        split at h
        · -- sep is the empty-string fallback marker
          intro c hc
          exact le_trans (split_by_character_bound cfg text chunks h c hc)
            (by omega)
        · rename_i hemp
          have hrest : ([] : List Char) ∈ rest := by
            rcases List.mem_cons.mp hmem with h0 | h0
            · exfalso; rw [← h0] at hemp; exact hemp rfl
            · exact h0
          split at h
          · revert h
            cases hm : mergeLoop cfg (fun frag => splitRecF cfg n rest frag) sep
                [] (pySplit sep text) with
            | none => intro h; cases h
            | some p =>
              obtain ⟨cs2, cur2⟩ := p
              intro h
              cases h
              obtain ⟨hcs, hcur⟩ := mergeLoop_bound cfg _ sep
                (fun frag r hr => ih rest frag r hrest hr)
                (pySplit sep text) [] cs2 cur2 (by simp) hm
              apply apply_overlap_bound
              intro c hc
              rcases List.mem_append.mp hc with hc1 | hc2
              · exact hcs c hc1
              · exact le_trans (baseStrip_bound cur2 c hc2) (by omega)
          · exact ih rest text chunks hrest h

/-- C1 counterexample: with the valid configuration `chunk_size = 5,
chunk_overlap = 2` and the default hierarchy, `split_text` on
`"abc de fgh"` returns a chunk `"de fgh"` of length `6 > 5`, although a
separator of the hierarchy (`" "`) occurs in the text and the hierarchy
contains the empty-string marker, so the documented exception does not
apply. -/
theorem c1_counterexample :
    split_text ⟨5, 2, DEFAULT_SEPARATORS⟩ (s2l "abc de fgh") =
      some [s2l "abc", s2l "bc de", s2l "de fgh"] ∧
    ¬ (s2l "de fgh").length ≤ 5 ∧
    containsSub (s2l " ") (s2l "abc de fgh") = true ∧
    ([] : List Char) ∈ DEFAULT_SEPARATORS := by
  refine ⟨by decide, by decide, by decide, by decide⟩

/-- C1 amended: for every configuration whose hierarchy contains the
empty-string fallback marker (in particular the default hierarchy) with
`chunk_overlap < chunk_size`, every chunk returned by `split_text` has
length at most `chunk_size + 1`: the `+ 1` is forced because the overlap
stitcher bounds `overlap + chunk` by `chunk_size` before inserting the
one-character joining space.  (Without the marker, oversized chunks can
also arise at nested recursion levels whenever the remaining hierarchy
has no separator occurring in an oversized fragment, not just in the
single documented top-level case.) -/
theorem c1_amended (cfg : Splitter) (text : List Char)
    (chunks : List (List Char)) (hvalid : cfg.chunk_overlap < cfg.chunk_size)
    (hmark : ([] : List Char) ∈ cfg.separators)
    (h : split_text cfg text = some chunks) :
    ∀ c ∈ chunks, c.length ≤ cfg.chunk_size + 1 :=
  splitRecF_bound cfg (cfg.separators.length + 1) cfg.separators text chunks
    hmark h

/-- C1 amended, witness: the oversized chunk of the counterexample run
satisfies the `chunk_size + 1` bound. -/
theorem c1_amended_witness :
    (s2l "de fgh").length ≤ 5 + 1 :=
  c1_amended ⟨5, 2, DEFAULT_SEPARATORS⟩ (s2l "abc de fgh")
    [s2l "abc", s2l "bc de", s2l "de fgh"] (by decide) (by decide) (by decide)
    (s2l "de fgh") (by decide)

/-
C3.  `_split_text_recursive` calls `_apply_overlap` on line 116 at every
recursion level, so recursed sub-chunks already carry overlap before the
enclosing level merges them and applies overlap again; the
merge-fully-then-stitch-once computation of the spec differs from it.
The two coincide exactly when `chunk_overlap = 0`.
-/

theorem mergeLoop_congr (cfg : Splitter) (sep : List Char)
    (r₁ r₂ : List Char → Option (List (List Char)))
    (hr : ∀ frag, r₁ frag = r₂ frag) :
    ∀ splits current,
      mergeLoop cfg r₁ sep current splits = mergeLoop cfg r₂ sep current splits := by
  intro splits
  induction splits with
  | nil => intro current; rfl
  | cons split splits ih =>
    intro current
    unfold mergeLoop
    split
    · exact ih _
    · split
      · rw [hr split, ih []]
      · rw [ih split]

theorem splitRecF_noOv (cfg : Splitter) (h0 : cfg.chunk_overlap = 0) :
    ∀ fuel seps text,
      splitRecF cfg fuel seps text = splitNoOvF cfg fuel seps text := by
  intro fuel
  induction fuel with
  | zero => intro seps text; rfl
  | succ n ih =>
    intro seps text
    unfold splitRecF splitNoOvF
    split
    · rfl
    · cases seps with
      | nil => rfl
      | cons sep rest =>
        simp only []
        split
        · rfl
        · split
          · rw [mergeLoop_congr cfg sep _ _ (fun frag => ih rest frag)]
            cases mergeLoop cfg (fun frag => splitNoOvF cfg n rest frag) sep []
                (pySplit sep text) with
            | none => rfl
            | some p =>
              obtain ⟨cs, cur⟩ := p
              simp only []
              rw [apply_overlap_zero cfg h0]
          · exact ih rest text

/-- C3 counterexample: with `chunk_size = 8, chunk_overlap = 3` and the
default hierarchy, `"aaaa\nbbb cc dd\neee"` splits on `"\n"`, the
oversized middle fragment recurses on `" "` and gets overlap applied
inside the recursion, and the final chunk then differs from the
merge-fully-then-stitch-once result (`" dd eee"` versus `"dd eee"`):
overlap IS applied to intermediate recursed fragments. -/
theorem c3_counterexample :
    split_text ⟨8, 3, DEFAULT_SEPARATORS⟩ (s2l "aaaa\nbbb cc dd\neee") =
      some [s2l "aaaa", s2l "bbb cc", s2l " cc dd", s2l " dd eee"] ∧
    splitThenStitchOnce ⟨8, 3, DEFAULT_SEPARATORS⟩ (s2l "aaaa\nbbb cc dd\neee") =
      some [s2l "aaaa", s2l "bbb cc", s2l " cc dd", s2l "dd eee"] ∧
    split_text ⟨8, 3, DEFAULT_SEPARATORS⟩ (s2l "aaaa\nbbb cc dd\neee") ≠
      splitThenStitchOnce ⟨8, 3, DEFAULT_SEPARATORS⟩ (s2l "aaaa\nbbb cc dd\neee") := by
  refine ⟨by decide, by decide, by decide⟩

/-- C3 amended: `split_text` applies the overlap stitcher at every
recursion level of `_split_text_recursive` rather than once after all
merging; the two computations coincide precisely in the degenerate case
`chunk_overlap = 0` (where stitching is the identity), and differ in
general. -/
theorem c3_amended (cfg : Splitter) (text : List Char)
    (h0 : cfg.chunk_overlap = 0) :
    split_text cfg text = splitThenStitchOnce cfg text := by
  unfold split_text split_text_recursive splitThenStitchOnce
  rw [splitRecF_noOv cfg h0]
  cases splitNoOvF cfg (cfg.separators.length + 1) cfg.separators text with
  | none => rfl
  | some l => simp [apply_overlap_zero cfg h0]

/-- C3 amended, witness at `chunk_size = 4, chunk_overlap = 0` on
`"abc \nde"`. -/
theorem c3_amended_witness :
    split_text ⟨4, 0, DEFAULT_SEPARATORS⟩ (s2l "abc \nde") =
      splitThenStitchOnce ⟨4, 0, DEFAULT_SEPARATORS⟩ (s2l "abc \nde") :=
  c3_amended ⟨4, 0, DEFAULT_SEPARATORS⟩ (s2l "abc \nde") rfl

/-
C9.  `_clean_text` is not idempotent in general: `"\r\r\n"` rewrites to
`"\r\n"` in one pass (the regex replaces the second/third characters and
leaves the first `\r` which then pairs with the new `\n`), which a second
pass rewrites again.  On carriage-return-free input it is idempotent;
the lemmas below establish the shape invariants of a cleaned text (no
tab, no two adjacent spaces, no three adjacent newlines) and that each
substitution fixes texts already in shape.
-/

/-- Strong induction on list length. -/
theorem list_strong_ind {α : Type} {P : List α → Prop}
    (h : ∀ t, (∀ s : List α, s.length < t.length → P s) → P t) : ∀ t, P t := by
  intro t
  generalize ht : t.length = n
  induction n using Nat.strong_induction_on generalizing t with
  | _ n ih => exact h t (fun s hs => ih s.length (ht ▸ hs) s rfl)

/-- No two adjacent occurrences of `a`. -/
def noTwo (a : Char) : List Char → Bool
  | x :: y :: r => !(x == a && y == a) && noTwo a (y :: r)
  | _ => true

/-- No three adjacent occurrences of `a`. -/
def noThree (a : Char) : List Char → Bool
  | x :: y :: z :: r => !(x == a && y == a && z == a) && noThree a (y :: z :: r)
  | _ => true

theorem noTwo_cons_cons (a x y : Char) (r : List Char) :
    noTwo a (x :: y :: r) = true ↔
      ¬(x = a ∧ y = a) ∧ noTwo a (y :: r) = true := by
  simp only [noTwo, Bool.and_eq_true, Bool.not_eq_true']
  constructor
  · rintro ⟨h1, h2⟩
    refine ⟨?_, h2⟩
    rintro ⟨rfl, rfl⟩
    simp at h1
  · rintro ⟨h1, h2⟩
    refine ⟨?_, h2⟩
    by_cases hx : x = a
    · have hy : ¬ y = a := fun hy => h1 ⟨hx, hy⟩
      simp [hy]
    · simp [hx]

theorem noThree_cons_cons (a x y z : Char) (r : List Char) :
    noThree a (x :: y :: z :: r) = true ↔
      ¬(x = a ∧ y = a ∧ z = a) ∧ noThree a (y :: z :: r) = true := by
  simp only [noThree, Bool.and_eq_true, Bool.not_eq_true']
  constructor
  · rintro ⟨h1, h2⟩
    refine ⟨?_, h2⟩
    rintro ⟨rfl, rfl, rfl⟩
    simp at h1
  · rintro ⟨h1, h2⟩
    refine ⟨?_, h2⟩
    by_cases hx : x = a
    · by_cases hy : y = a
      · have hz : ¬ z = a := fun hz => h1 ⟨hx, hy, hz⟩
        simp [hz]
      · simp [hx, hy]
    · simp [hx]

theorem noTwo_tail (a x : Char) (l : List Char) (h : noTwo a (x :: l) = true) :
    noTwo a l = true := by
  cases l with
  | nil => rfl
  | cons y r => exact ((noTwo_cons_cons a x y r).mp h).2

theorem noTwo_pair (a x y : Char) (l : List Char)
    (h : noTwo a (x :: y :: l) = true) : ¬(x = a ∧ y = a) :=
  ((noTwo_cons_cons a x y l).mp h).1

theorem noTwo_cons_head (a c : Char) (l : List Char)
    (hl : noTwo a l = true)
    (hh : ∀ d, l.head? = some d → ¬(c = a ∧ d = a)) :
    noTwo a (c :: l) = true := by
  cases l with
  | nil => rfl
  | cons d r => exact (noTwo_cons_cons a c d r).mpr ⟨hh d rfl, hl⟩

theorem noTwo_cons_of_ne_left (a c : Char) (l : List Char) (hc : c ≠ a)
    (hl : noTwo a l = true) : noTwo a (c :: l) = true :=
  noTwo_cons_head a c l hl (fun _ _ hp => hc hp.1)

theorem noThree_tail (a x : Char) (l : List Char)
    (h : noThree a (x :: l) = true) : noThree a l = true := by
  cases l with
  | nil => rfl
  | cons y r =>
    cases r with
    | nil => rfl
    | cons z s => exact ((noThree_cons_cons a x y z s).mp h).2

theorem noThree_triple (a x y z : Char) (l : List Char)
    (h : noThree a (x :: y :: z :: l) = true) : ¬(x = a ∧ y = a ∧ z = a) :=
  ((noThree_cons_cons a x y z l).mp h).1

theorem noThree_cons_of_ne_left (a c : Char) (l : List Char) (hc : c ≠ a)
    (hl : noThree a l = true) : noThree a (c :: l) = true := by
  cases l with
  | nil => rfl
  | cons y r =>
    cases r with
    | nil => rfl
    | cons z s =>
      exact (noThree_cons_cons a c y z s).mpr ⟨fun hp => hc hp.1, hl⟩

theorem noThree_cons_of_ne_second (a c x : Char) (l : List Char) (hc : c ≠ a)
    (hl : noThree a (c :: l) = true) : noThree a (x :: c :: l) = true := by
  cases l with
  | nil => rfl
  | cons z s =>
    exact (noThree_cons_cons a x c z s).mpr ⟨fun hp => hc hp.2.1, hl⟩

theorem noThree_cons_of_ne_third (a x y z : Char) (l : List Char) (hz : z ≠ a)
    (hl : noThree a (y :: z :: l) = true) :
    noThree a (x :: y :: z :: l) = true :=
  (noThree_cons_cons a x y z l).mpr ⟨fun hp => hz hp.2.2, hl⟩

theorem noTwo_append_right (a : Char) (u l : List Char)
    (h : noTwo a (u ++ l) = true) : noTwo a l = true := by
  induction u with
  | nil => exact h
  | cons x u ih => exact ih (noTwo_tail a x (u ++ l) h)

theorem noTwo_append_left (a : Char) (u l : List Char)
    (h : noTwo a (u ++ l) = true) : noTwo a u = true := by
  induction u with
  | nil => rfl
  | cons x u ih =>
    cases u with
    | nil => rfl
    | cons y v =>
      have hp := noTwo_pair a x y (v ++ l) (by simpa using h)
      exact (noTwo_cons_cons a x y v).mpr
        ⟨hp, ih (noTwo_tail a x ((y :: v) ++ l) h)⟩

theorem noThree_append_right (a : Char) (u l : List Char)
    (h : noThree a (u ++ l) = true) : noThree a l = true := by
  induction u with
  | nil => exact h
  | cons x u ih => exact ih (noThree_tail a x (u ++ l) h)

theorem noThree_append_left (a : Char) (u l : List Char)
    (h : noThree a (u ++ l) = true) : noThree a u = true := by
  induction u with
  | nil => rfl
  | cons x u ih =>
    cases u with
    | nil => rfl
    | cons y v =>
      cases v with
      | nil => rfl
      | cons z w =>
        have ht := noThree_triple a x y z (w ++ l) (by simpa using h)
        exact (noThree_cons_cons a x y z w).mpr
          ⟨ht, ih (noThree_tail a x ((y :: z :: w) ++ l) h)⟩

theorem pyStrip_sandwich (t : List Char) :
    ∃ u v, t = u ++ (pyStrip t ++ v) := by
  obtain ⟨u, hu⟩ := List.dropWhile_suffix (l := t) isPySpace
  obtain ⟨w, hw⟩ :=
    List.dropWhile_suffix (l := (t.dropWhile isPySpace).reverse) isPySpace
  refine ⟨u, w.reverse, ?_⟩
  have : t.dropWhile isPySpace = pyStrip t ++ w.reverse := by
    unfold pyStrip
    have := congrArg List.reverse hw
    simpa [List.reverse_append] using this.symm
  rw [← this, hu]

theorem pyStrip_noTwo (a : Char) (t : List Char) (h : noTwo a t = true) :
    noTwo a (pyStrip t) = true := by
  obtain ⟨u, v, huv⟩ := pyStrip_sandwich t
  rw [huv] at h
  exact noTwo_append_left a _ v (noTwo_append_right a u _ h)

theorem pyStrip_noThree (a : Char) (t : List Char) (h : noThree a t = true) :
    noThree a (pyStrip t) = true := by
  obtain ⟨u, v, huv⟩ := pyStrip_sandwich t
  rw [huv] at h
  exact noThree_append_left a _ v (noThree_append_right a u _ h)

theorem dropWhile_self_of_append (p : Char → Bool) (x y : List Char)
    (h : List.dropWhile p (x ++ y) = x ++ y) : List.dropWhile p x = x := by
  cases x with
  | nil => rfl
  | cons c x' =>
    rw [List.cons_append, List.dropWhile_cons] at h
    by_cases hc : p c = true
    · exfalso
      rw [if_pos hc] at h
      have hlen := congrArg List.length h
      have hle : (List.dropWhile p (x' ++ y)).length ≤ (x' ++ y).length :=
        (List.dropWhile_sublist p).length_le
      rw [hlen] at hle
      simp only [List.length_cons, List.length_append] at hle
      omega
    · rw [List.dropWhile_cons, if_neg hc]

theorem pyStrip_idem (t : List Char) : pyStrip (pyStrip t) = pyStrip t := by
  have hA : List.dropWhile isPySpace (t.dropWhile isPySpace) =
      t.dropWhile isPySpace := List.dropWhile_idempotent _ _
  -- pyStrip t is a front segment of `t.dropWhile isPySpace`
  obtain ⟨w, hw⟩ :=
    List.dropWhile_suffix (l := (t.dropWhile isPySpace).reverse) isPySpace
  have hfront : t.dropWhile isPySpace = pyStrip t ++ w.reverse := by
    unfold pyStrip
    have := congrArg List.reverse hw
    simpa [List.reverse_append] using this.symm
  have h1 : List.dropWhile isPySpace (pyStrip t) = pyStrip t := by
    apply dropWhile_self_of_append isPySpace (pyStrip t) w.reverse
    rw [← hfront]
    exact hA
  have h2 : List.dropWhile isPySpace (pyStrip t).reverse = (pyStrip t).reverse := by
    unfold pyStrip
    rw [List.reverse_reverse]
    exact List.dropWhile_idempotent _ _
  calc pyStrip (pyStrip t)
      = (((pyStrip t).dropWhile isPySpace).reverse.dropWhile isPySpace).reverse :=
        rfl
    _ = ((pyStrip t).reverse.dropWhile isPySpace).reverse := by rw [h1]
    _ = ((pyStrip t).reverse).reverse := by rw [h2]
    _ = pyStrip t := List.reverse_reverse _

theorem subCrlf_mem : ∀ (t : List Char) (c : Char), c ∈ subCrlf t → c ∈ t := by
  apply list_strong_ind
    (P := fun t => ∀ c : Char, c ∈ subCrlf t → c ∈ t)
  intro t ih c hc
  match t with
  | [] => simpa [subCrlf] using hc
  | [d] => simpa [subCrlf] using hc
  | d :: e :: rest =>
    rw [subCrlf] at hc
    split at hc
    · rcases List.mem_cons.mp hc with rfl | hmem
      · rename_i hde
        simp [hde.2]
      · have := ih rest (by simp only [List.length_cons]; omega) c hmem
        simp [this]
    · rcases List.mem_cons.mp hc with rfl | hmem
      · simp
      · have := ih (e :: rest) (by simp only [List.length_cons]; omega) c hmem
        simp only [List.mem_cons] at this ⊢
        tauto

theorem subCrlf_id : ∀ (t : List Char), '\r' ∉ t → subCrlf t = t := by
  apply list_strong_ind (P := fun t => '\r' ∉ t → subCrlf t = t)
  intro t ih hr
  match t with
  | [] => rfl
  | [d] => rfl
  | d :: e :: rest =>
    rw [subCrlf]
    have hd : ¬ (d = '\r' ∧ e = '\n') := by
      rintro ⟨rfl, -⟩
      exact hr (by simp)
    rw [if_neg hd]
    rw [ih (e :: rest) (by simp only [List.length_cons]; omega)
      (fun hmem => hr (List.mem_cons_of_mem d hmem))]

theorem subTab_mem (t : List Char) (c : Char) (hc : c ∈ subTab t) :
    c ∈ t ∨ c = ' ' := by
  unfold subTab at hc
  obtain ⟨a, ha, hca⟩ := List.mem_flatMap.mp hc
  by_cases hat : a = '\t'
  · right
    rw [hat] at hca
    simp at hca
    simpa using hca
  · left
    rw [if_neg hat] at hca
    rcases List.mem_singleton.mp hca with rfl
    exact ha

theorem subTab_no_tab (t : List Char) : '\t' ∉ subTab t := by
  intro hc
  unfold subTab at hc
  obtain ⟨a, _, hca⟩ := List.mem_flatMap.mp hc
  by_cases hat : a = '\t'
  · rw [hat] at hca
    simp at hca
  · rw [if_neg hat] at hca
    rcases List.mem_singleton.mp hca with h
    exact hat h.symm

theorem subTab_id (t : List Char) (h : '\t' ∉ t) : subTab t = t := by
  induction t with
  | nil => rfl
  | cons c rest ih =>
    unfold subTab
    have hc : ¬ c = '\t' := fun hc => h (hc ▸ List.mem_cons_self c rest)
    rw [List.flatMap_cons, if_neg hc]
    have := ih (fun hmem => h (List.mem_cons_of_mem c hmem))
    unfold subTab at this
    rw [this]
    rfl

theorem spcGo_mem : ∀ (t : List Char) (n : Nat) (c : Char),
    c ∈ spcGo n t → c ∈ t ∨ c = ' ' := by
  intro t
  induction t with
  | nil =>
    intro n c hc
    right
    unfold spcGo spcFlush at hc
    exact List.eq_of_mem_replicate hc
  | cons d rest ih =>
    intro n c hc
    unfold spcGo at hc
    split at hc
    · rcases ih (n + 1) c hc with h | h
      · exact Or.inl (List.mem_cons_of_mem d h)
      · exact Or.inr h
    · rcases List.mem_append.mp hc with h | h
      · exact Or.inr (List.eq_of_mem_replicate h)
      · rcases List.mem_cons.mp h with rfl | h2
        · exact Or.inl (List.mem_cons_self c rest)
        · rcases ih 0 c h2 with h3 | h3
          · exact Or.inl (List.mem_cons_of_mem d h3)
          · exact Or.inr h3

theorem nlGo_mem : ∀ (t : List Char) (n : Nat) (c : Char),
    c ∈ nlGo n t → c ∈ t ∨ c = '\n' := by
  intro t
  induction t with
  | nil =>
    intro n c hc
    right
    unfold nlGo nlFlush at hc
    exact List.eq_of_mem_replicate hc
  | cons d rest ih =>
    intro n c hc
    unfold nlGo at hc
    split at hc
    · rcases ih (n + 1) c hc with h | h
      · exact Or.inl (List.mem_cons_of_mem d h)
      · exact Or.inr h
    · rcases List.mem_append.mp hc with h | h
      · exact Or.inr (List.eq_of_mem_replicate h)
      · rcases List.mem_cons.mp h with rfl | h2
        · exact Or.inl (List.mem_cons_self c rest)
        · rcases ih 0 c h2 with h3 | h3
          · exact Or.inl (List.mem_cons_of_mem d h3)
          · exact Or.inr h3

theorem spcFlush_succ (n : Nat) : spcFlush (n + 1) = [' '] := by
  unfold spcFlush
  rw [Nat.min_eq_right (by omega)]
  rfl

theorem nlFlush_one : nlFlush 1 = ['\n'] := rfl

theorem nlFlush_big (n : Nat) : nlFlush (n + 2) = ['\n', '\n'] := by
  unfold nlFlush
  rw [Nat.min_eq_right (by omega)]
  rfl

theorem noTwo_replicate_prepend (a x : Char) (hx : x ≠ a) :
    ∀ (k : Nat) (l : List Char), noTwo a l = true →
      noTwo a (List.replicate k x ++ l) = true := by
  intro k
  induction k with
  | zero => intro l hl; exact hl
  | succ m ih =>
    intro l hl
    rw [List.replicate_succ, List.cons_append]
    exact noTwo_cons_of_ne_left a x _ hx (ih l hl)

theorem spcGo_noTwo : ∀ (t : List Char) (n : Nat),
    noTwo ' ' (spcGo n t) = true := by
  intro t
  induction t with
  | nil =>
    intro n
    cases n with
    | zero => rfl
    | succ m => rw [spcGo, spcFlush_succ]; rfl
  | cons d rest ih =>
    intro n
    rw [spcGo]
    split
    · exact ih (n + 1)
    · rename_i hd
      have inner : noTwo ' ' (d :: spcGo 0 rest) = true := by
        apply noTwo_cons_head _ _ _ (ih 0)
        intro e he hp
        exact hd hp.1
      cases n with
      | zero => exact inner
      | succ m =>
        rw [spcFlush_succ]
        apply noTwo_cons_head _ _ _ inner
        intro e he hp
        cases he
        exact hd hp.2

theorem spcGo_one (t : List Char)
    (h : t = [] ∨ ∃ d r, t = d :: r ∧ d ≠ ' ') :
    spcGo 1 t = ' ' :: spcGo 0 t := by
  rcases h with rfl | ⟨d, r, rfl, hd⟩
  · rfl
  · rw [spcGo, if_neg hd, spcGo, if_neg hd, spcFlush_succ]
    rfl

theorem spcGo_id : ∀ (t : List Char), noTwo ' ' t = true → spcGo 0 t = t := by
  intro t
  induction t with
  | nil => intro _; rfl
  | cons d rest ih =>
    intro h
    by_cases hd : d = ' '
    · subst hd
      rw [spcGo, if_pos rfl]
      cases rest with
      | nil => rfl
      | cons e r =>
        have he : e ≠ ' ' := fun he => noTwo_pair ' ' ' ' e r h ⟨rfl, he⟩
        rw [spcGo_one (e :: r) (Or.inr ⟨e, r, rfl, he⟩),
          ih (noTwo_tail ' ' ' ' (e :: r) h)]
    · rw [spcGo, if_neg hd]
      rw [ih (noTwo_tail ' ' d rest h)]
      rfl

theorem nlGo_pos_head : ∀ (t : List Char) (n : Nat), 1 ≤ n →
    ∃ l, nlGo n t = '\n' :: l := by
  intro t
  induction t with
  | nil =>
    intro n hn
    cases n with
    | zero => omega
    | succ m =>
      cases m with
      | zero => exact ⟨[], rfl⟩
      | succ k => exact ⟨['\n'], by rw [nlGo, nlFlush_big]⟩
  | cons d rest ih =>
    intro n hn
    rw [nlGo]
    split
    · exact ih (n + 1) (by omega)
    · cases n with
      | zero => omega
      | succ m =>
        cases m with
        | zero => exact ⟨d :: nlGo 0 rest, by rw [nlFlush_one]; rfl⟩
        | succ k => exact ⟨'\n' :: d :: nlGo 0 rest, by rw [nlFlush_big]; rfl⟩

theorem nlGo_zero_cons (d : Char) (r : List Char) :
    ∃ l, nlGo 0 (d :: r) = d :: l := by
  by_cases hd : d = '\n'
  · subst hd
    rw [nlGo, if_pos rfl]
    exact nlGo_pos_head r 1 (by omega)
  · exact ⟨nlGo 0 r, by rw [nlGo, if_neg hd]; rfl⟩

theorem nlGo_noTwo : ∀ (t : List Char) (n : Nat), noTwo ' ' t = true →
    noTwo ' ' (nlGo n t) = true := by
  intro t
  induction t with
  | nil =>
    intro n _
    cases n with
    | zero => rfl
    | succ m =>
      cases m with
      | zero => rfl
      | succ k => rw [nlGo, nlFlush_big]; rfl
  | cons d rest ih =>
    intro n h
    rw [nlGo]
    split
    · exact ih (n + 1) (noTwo_tail ' ' d rest h)
    · rename_i hd
      have inner : noTwo ' ' (d :: nlGo 0 rest) = true := by
        apply noTwo_cons_head _ _ _ (ih 0 (noTwo_tail ' ' d rest h))
        intro e he hp
        cases rest with
        | nil =>
          rw [show nlGo 0 ([] : List Char) = [] from rfl] at he
          cases he
        | cons f r =>
          obtain ⟨l, hl⟩ := nlGo_zero_cons f r
          rw [hl] at he
          cases he
          exact noTwo_pair ' ' d _ r h hp
      unfold nlFlush
      exact noTwo_replicate_prepend ' ' '\n' (by decide) (min n 2) _ inner

theorem nlGo_noThree : ∀ (t : List Char) (n : Nat),
    noThree '\n' (nlGo n t) = true := by
  intro t
  induction t with
  | nil =>
    intro n
    cases n with
    | zero => rfl
    | succ m =>
      cases m with
      | zero => rfl
      | succ k => rw [nlGo, nlFlush_big]; rfl
  | cons d rest ih =>
    intro n
    rw [nlGo]
    split
    · exact ih (n + 1)
    · rename_i hd
      have inner : noThree '\n' (d :: nlGo 0 rest) = true :=
        noThree_cons_of_ne_left '\n' d _ hd (ih 0)
      cases n with
      | zero => exact inner
      | succ m =>
        cases m with
        | zero =>
          rw [nlFlush_one]
          exact noThree_cons_of_ne_second '\n' d '\n' _ hd inner
        | succ k =>
          rw [nlFlush_big]
          exact noThree_cons_of_ne_third '\n' '\n' '\n' d _ hd
            (noThree_cons_of_ne_second '\n' d '\n' _ hd inner)

theorem nlGo_one (t : List Char)
    (h : t = [] ∨ ∃ d r, t = d :: r ∧ d ≠ '\n') :
    nlGo 1 t = '\n' :: nlGo 0 t := by
  rcases h with rfl | ⟨d, r, rfl, hd⟩
  · rfl
  · rw [nlGo, if_neg hd, nlGo, if_neg hd, nlFlush_one]
    rfl

theorem nlGo_two (t : List Char)
    (h : t = [] ∨ ∃ d r, t = d :: r ∧ d ≠ '\n') :
    nlGo 2 t = '\n' :: '\n' :: nlGo 0 t := by
  rcases h with rfl | ⟨d, r, rfl, hd⟩
  · rfl
  · rw [nlGo, if_neg hd, nlGo, if_neg hd, nlFlush_big]
    rfl

theorem nlGo_id : ∀ (t : List Char), noThree '\n' t = true → nlGo 0 t = t := by
  apply list_strong_ind (P := fun t => noThree '\n' t = true → nlGo 0 t = t)
  intro t ih h
  match t with
  | [] => rfl
  | d :: rest =>
    by_cases hd : d = '\n'
    · subst hd
      rw [nlGo, if_pos rfl]
      cases rest with
      | nil => rfl
      | cons e r =>
        by_cases he : e = '\n'
        · subst he
          rw [nlGo, if_pos rfl]
          cases r with
          | nil => rfl
          | cons f r2 =>
            have hf : f ≠ '\n' := fun hf =>
              noThree_triple '\n' '\n' '\n' f r2 h ⟨rfl, rfl, hf⟩
            rw [nlGo_two (f :: r2) (Or.inr ⟨f, r2, rfl, hf⟩)]
            rw [ih (f :: r2) (by simp only [List.length_cons]; omega)
              (noThree_tail '\n' '\n' _ (noThree_tail '\n' '\n' _ h))]
        · rw [nlGo_one (e :: r) (Or.inr ⟨e, r, rfl, he⟩)]
          rw [ih (e :: r) (by simp only [List.length_cons]; omega)
            (noThree_tail '\n' '\n' _ h)]
    · rw [nlGo, if_neg hd]
      rw [ih rest (by simp only [List.length_cons]; omega)
        (noThree_tail '\n' d rest h)]
      rfl

/-- C9 counterexample: `_clean_text("a\r\r\nb") = "a\r\nb"` but a second
pass rewrites the surviving `"\r\n"` to `"\n"`, so `_clean_text` is not
idempotent. -/
theorem c9_counterexample :
    clean_text (clean_text (s2l "a\r\r\nb")) ≠ clean_text (s2l "a\r\r\nb") := by
  decide

/-- C9 amended: `_clean_text` is idempotent on every input containing no
carriage return; in general a run `\r…\r\n` loses one `\r` per pass, so
idempotence fails exactly through the `\r\n` substitution. -/
theorem c9_amended (t : List Char) (hr : '\r' ∉ t) :
    clean_text (clean_text t) = clean_text t := by
  have hmem : ∀ c ∈ clean_text t, c ∈ t ∨ c = ' ' ∨ c = '\n' := by
    intro c hc
    have h1 := (pyStrip_sublist _).subset hc
    rcases nlGo_mem _ 0 c h1 with h2 | h2
    · rcases spcGo_mem _ 0 c h2 with h3 | h3
      · rcases subTab_mem _ c h3 with h4 | h4
        · exact Or.inl (subCrlf_mem t c h4)
        · exact Or.inr (Or.inl h4)
      · exact Or.inr (Or.inl h3)
    · exact Or.inr (Or.inr h2)
  have hcr : '\r' ∉ clean_text t := by
    intro hc
    rcases hmem _ hc with h | h | h
    · exact hr h
    · exact absurd h (by decide)
    · exact absurd h (by decide)
  have htab : '\t' ∉ clean_text t := by
    intro hc
    have h1 := (pyStrip_sublist _).subset hc
    rcases nlGo_mem _ 0 _ h1 with h2 | h2
    · rcases spcGo_mem _ 0 _ h2 with h3 | h3
      · exact subTab_no_tab _ h3
      · exact absurd h3 (by decide)
    · exact absurd h2 (by decide)
  have hsp : noTwo ' ' (clean_text t) = true :=
    pyStrip_noTwo ' ' _ (nlGo_noTwo _ 0 (spcGo_noTwo _ 0))
  have hnl : noThree '\n' (clean_text t) = true :=
    pyStrip_noThree '\n' _ (nlGo_noThree _ 0)
  conv_lhs => rw [clean_text]
  rw [subCrlf_id _ hcr, subTab_id _ htab]
  unfold subSpaces
  rw [spcGo_id _ hsp]
  unfold subNewlines
  rw [nlGo_id _ hnl]
  unfold clean_text
  exact pyStrip_idem _

/-- C9 amended, witness on the carriage-return-free input `"a  b"`. -/
theorem c9_amended_witness :
    clean_text (clean_text (s2l "a  b")) = clean_text (s2l "a  b") :=
  c9_amended (s2l "a  b") (by decide)

/-
C10.  `to_chroma_format` spreads `**self.metadata.extra` after the five
fixed keys, so an `extra` entry named like a fixed key silently
overrides it; with `page_number = None` the serialised value is `0`
only when `extra` does not itself contain a `"page_number"` key.
-/

theorem dictGet_map_override (k k' : String) (v : PyVal) (hne : k ≠ k') :
    ∀ d : List (String × PyVal),
      dictGet (d.map (fun e => if e.1 = k' then (k', v) else e)) k =
        dictGet d k := by
  intro d
  induction d with
  | nil => rfl
  | cons e d' ih =>
    unfold dictGet at ih ⊢
    by_cases he : e.1 = k'
    · rw [List.map_cons, if_pos he]
      have hek : ¬ e.1 = k := by
        intro h
        exact hne (by rw [← h, he])
      rw [List.find?_cons_of_neg _ (by simpa using Ne.symm hne),
        List.find?_cons_of_neg _ (by simpa using hek)]
      exact ih
    · rw [List.map_cons, if_neg he]
      by_cases hk : e.1 = k
      · rw [List.find?_cons_of_pos _ (by simpa using hk),
          List.find?_cons_of_pos _ (by simpa using hk)]
      · rw [List.find?_cons_of_neg _ (by simpa using hk),
          List.find?_cons_of_neg _ (by simpa using hk)]
        exact ih

theorem dictGet_append_single (k k' : String) (v : PyVal) (hne : k ≠ k') :
    ∀ d : List (String × PyVal),
      dictGet (d ++ [(k', v)]) k = dictGet d k := by
  intro d
  induction d with
  | nil =>
    unfold dictGet
    rw [List.nil_append, List.find?_cons_of_neg _ (by simpa using Ne.symm hne)]
  | cons e d' ih =>
    unfold dictGet at ih ⊢
    rw [List.cons_append]
    by_cases hk : e.1 = k
    · rw [List.find?_cons_of_pos _ (by simpa using hk),
        List.find?_cons_of_pos _ (by simpa using hk)]
    · rw [List.find?_cons_of_neg _ (by simpa using hk),
        List.find?_cons_of_neg _ (by simpa using hk)]
      exact ih

theorem dictUpsert_get_ne (d : List (String × PyVal)) (k k' : String)
    (v : PyVal) (hne : k ≠ k') :
    dictGet (dictUpsert d k' v) k = dictGet d k := by
  unfold dictUpsert
  split
  · exact dictGet_map_override k k' v hne d
  · exact dictGet_append_single k k' v hne d

theorem dictMerge_get_notin (es : List (String × PyVal)) :
    ∀ (d : List (String × PyVal)) (k : String), k ∉ es.map Prod.fst →
      dictGet (dictMerge d es) k = dictGet d k := by
  induction es with
  | nil => intro d k _; rfl
  | cons e es ih =>
    intro d k hk
    have h1 : k ≠ e.1 := by
      intro h
      apply hk
      rw [List.map_cons, h]
      exact List.mem_cons_self _ _
    have h2 : k ∉ es.map Prod.fst := by
      intro h
      exact hk (by rw [List.map_cons]; exact List.mem_cons_of_mem _ h)
    unfold dictMerge at ih ⊢
    rw [List.foldl_cons]
    rw [ih (dictUpsert d e.1 e.2) k h2]
    exact dictUpsert_get_ne d k e.1 e.2 h1

/-- C10 counterexample: a Document metadata with `page_number = None`
whose `extra` carries its own `"page_number"` entry serialises that
entry (spread last), not `0`. -/
theorem c10_counterexample :
    dictGet (chroma_metadata
      { source := "s", chunk_index := 0, total_chunks := 1,
        created_at := "T", page_number := none,
        extra := [("page_number", PyVal.int 7)] }) "page_number" =
      some (PyVal.int 7) ∧
    some (PyVal.int 7) ≠ some (PyVal.int 0) := by
  refine ⟨by decide, by decide⟩

/-- C10 amended: when `page_number = None` and `extra` shadows none of
the five fixed keys, the serialised map has `"page_number" = 0`
(indistinguishable from a literal page `0`, which `or 0` also sends to
`0`) and the other fixed fields carry their values (`created_at` as its
ISO string); an `extra` entry with a fixed key's name overrides that
field because `**extra` is spread last. -/
theorem c10_amended (m : DocumentMetadata)
    (hpage : m.page_number = none)
    (hkeys : ∀ k ∈ m.extra.map Prod.fst,
      k ∉ ["source", "chunk_index", "total_chunks", "created_at",
        "page_number"]) :
    dictGet (chroma_metadata m) "page_number" = some (PyVal.int 0) ∧
    dictGet (chroma_metadata m) "source" = some (PyVal.str m.source) ∧
    dictGet (chroma_metadata m) "chunk_index" = some (PyVal.int m.chunk_index) ∧
    dictGet (chroma_metadata m) "total_chunks" =
      some (PyVal.int m.total_chunks) ∧
    dictGet (chroma_metadata m) "created_at" =
      some (PyVal.str m.created_at) := by
  have hni : ∀ k : String,
      k ∈ ["source", "chunk_index", "total_chunks", "created_at",
        "page_number"] → k ∉ m.extra.map Prod.fst :=
    fun k hres hmem => hkeys k hmem hres
  unfold chroma_metadata
  refine ⟨?_, ?_, ?_, ?_, ?_⟩
  · rw [dictMerge_get_notin _ _ _ (hni "page_number" (by decide))]
    simp [dictGet, List.find?, hpage, pageOr0]
  · rw [dictMerge_get_notin _ _ _ (hni "source" (by decide))]
    simp [dictGet, List.find?]
  · rw [dictMerge_get_notin _ _ _ (hni "chunk_index" (by decide))]
    simp [dictGet, List.find?]
  · rw [dictMerge_get_notin _ _ _ (hni "total_chunks" (by decide))]
    simp [dictGet, List.find?]
  · rw [dictMerge_get_notin _ _ _ (hni "created_at" (by decide))]
    simp [dictGet, List.find?]

/-- C10 amended, witness on metadata with a disjoint extra entry. -/
theorem c10_amended_witness :
    dictGet (chroma_metadata
      { source := "s", chunk_index := 0, total_chunks := 1,
        created_at := "T", page_number := none,
        extra := [("topic", PyVal.str "x")] }) "page_number" =
      some (PyVal.int 0) :=
  (c10_amended _ rfl (by decide)).1

/-
C8.  `Document.id` defaults to a fresh `uuid4()` and
`DocumentMetadata.created_at` to `datetime.now()`, so two runs of the
same ingestion call return Documents differing in `id` and
`created_at`: the output as a whole is not deterministic.  Erasing
those two ambient-dependent fields, the rest is a function of the
input alone.
-/

/-- A Document without its run-dependent `id` and `created_at`. -/
def eraseFresh (d : Document) :
    List Char × String × Nat × Nat × Option Nat × List (String × PyVal) :=
  (d.content, d.metadata.source, d.metadata.chunk_index,
    d.metadata.total_chunks, d.metadata.page_number, d.metadata.extra)

/-- C8 counterexample: two runs of `ingest_text` on the identical input
`"hello"` with the same configuration, differing only in the ambient
uuid draw and clock reading, return different outputs (the Document ids
differ). -/
theorem c8_counterexample :
    ingest_text ⟨500, 50, DEFAULT_SEPARATORS⟩ (fun _ => "id-run-1") "t1"
        (s2l "hello") "src" [] ≠
      ingest_text ⟨500, 50, DEFAULT_SEPARATORS⟩ (fun _ => "id-run-2") "t2"
        (s2l "hello") "src" [] := by
  decide

/-- C8 amended: modulo the freshly drawn `id` and the `created_at`
timestamp, both `ingest_text` and `ingest_pdf` are deterministic
functions of the input text/pages, source and configuration: the erased
outputs of any two runs coincide. -/
theorem c8_amended :
    (∀ (cfg : Splitter) (gen₁ gen₂ : Nat → String) (now₁ now₂ : String)
      (text : List Char) (source : String) (em : List (String × PyVal)),
      (ingest_text cfg gen₁ now₁ text source em).map (List.map eraseFresh) =
        (ingest_text cfg gen₂ now₂ text source em).map (List.map eraseFresh)) ∧
    (∀ (cfg : Splitter) (gen₁ gen₂ : Nat → String) (now₁ now₂ : String)
      (pages : List (List Char)) (fn : String) (fs : Int)
      (em : List (String × PyVal)),
      (ingest_pdf cfg gen₁ now₁ pages fn fs em).map (List.map eraseFresh) =
        (ingest_pdf cfg gen₂ now₂ pages fn fs em).map (List.map eraseFresh)) := by
  constructor
  · intro cfg gen₁ gen₂ now₁ now₂ text source em
    unfold ingest_text
    by_cases h1 : (clean_text text).isEmpty
    · rw [if_pos h1, if_pos h1]
    · rw [if_neg h1, if_neg h1]
      cases hsp : split_text cfg (clean_text text) with
      | none => rfl
      | some chunks =>
        by_cases h2 : chunks.isEmpty
        · simp only [if_pos h2]
        · simp only [if_neg h2, Option.map_some']
          refine congrArg some ?_
          rw [List.map_map, List.map_map]
          rfl
  · intro cfg gen₁ gen₂ now₁ now₂ pages fn fs em
    unfold ingest_pdf
    cases hc : collectPdfChunks cfg (pagesEnum pages) with
    | none => rfl
    | some all_chunks =>
      by_cases h2 : all_chunks.isEmpty
      · simp only [if_pos h2]
      · simp only [if_neg h2, Option.map_some']
        refine congrArg some ?_
        rw [List.map_map, List.map_map]
        rfl

/-
C7.  With `chunk_overlap = 0` the splitter never duplicates or invents
characters — the concatenation of the returned chunks is an ordered
subsequence of the input — but rejoining with the removed separators
does not reconstruct the trimmed input: every flush strips the buffer,
so whitespace adjacent to a chunk boundary is lost.
-/

theorem sublist_flatten_mono {l₁ l₂ : List (List Char)} (h : l₁.Sublist l₂) :
    l₁.flatten.Sublist l₂.flatten := by
  induction h with
  | slnil => exact List.Sublist.refl _
  | cons a h ih => exact ih.trans (List.sublist_append_right a _)
  | cons₂ a h ih => exact (List.Sublist.refl a).append ih

theorem pySplitF_ne_nil (sep : List Char) :
    ∀ (fuel : Nat) (t : List Char), pySplitF sep fuel t ≠ [] := by
  intro fuel t
  match fuel, t with
  | _, [] => simp [pySplitF]
  | 0, c :: rest => simp [pySplitF]
  | fuel + 1, c :: rest =>
    rw [pySplitF]
    split
    · simp
    · split <;> simp

theorem pySplitF_flatten_sublist (sep : List Char) :
    ∀ (fuel : Nat) (t : List Char), (pySplitF sep fuel t).flatten.Sublist t := by
  intro fuel
  induction fuel with
  | zero =>
    intro t
    cases t with
    | nil => simp [pySplitF]
    | cons c rest => simp [pySplitF]
  | succ n ih =>
    intro t
    cases t with
    | nil => simp [pySplitF]
    | cons c rest =>
      rw [pySplitF]
      split
      · have h1 := ih (rest.drop (sep.length - 1))
        have h2 : (rest.drop (sep.length - 1)).Sublist rest :=
          List.drop_sublist _ _
        simpa using (h1.trans h2).cons c
      · cases hx : pySplitF sep n rest with
        | nil => exact absurd hx (pySplitF_ne_nil sep n rest)
        | cons s ss =>
          have h1 := ih rest
          rw [hx] at h1
          have : ((c :: s) :: ss).flatten = c :: (s :: ss).flatten := by
            simp
          rw [this]
          exact h1.cons₂ c

theorem append_drop_of_isPrefixOf (s : List Char) :
    ∀ l : List Char, s.isPrefixOf l = true → s ++ l.drop s.length = l := by
  induction s with
  | nil => intro l _; simp
  | cons c s ih =>
    intro l h
    cases l with
    | nil => simp [List.isPrefixOf] at h
    | cons d l' =>
      simp only [List.isPrefixOf, Bool.and_eq_true, beq_iff_eq] at h
      obtain ⟨rfl, h2⟩ := h
      simp only [List.length_cons, List.drop_succ_cons, List.cons_append]
      rw [ih l' h2]

theorem joinSep_pySplitF (sep : List Char) (hsep : sep ≠ []) :
    ∀ (fuel : Nat) (t : List Char), t.length ≤ fuel →
      joinSep sep (pySplitF sep fuel t) = t := by
  intro fuel
  induction fuel with
  | zero =>
    intro t ht
    have : t = [] := List.length_eq_zero.mp (by omega)
    subst this
    rfl
  | succ n ih =>
    intro t ht
    cases t with
    | nil => rfl
    | cons c rest =>
      rw [pySplitF]
      split
      · rename_i hpre
        have hu : sep ++ (c :: rest).drop sep.length = c :: rest :=
          append_drop_of_isPrefixOf sep (c :: rest) hpre.2
        have hdrop : rest.drop (sep.length - 1) =
            (c :: rest).drop sep.length := by
          obtain ⟨m, hm⟩ := Nat.exists_eq_succ_of_ne_zero
            (fun h => hsep (List.length_eq_zero.mp h))
          rw [hm, List.drop_succ_cons]
          simp
        have hlen : (rest.drop (sep.length - 1)).length ≤ n := by
          have := List.length_drop (sep.length - 1) rest
          simp only [List.length_cons] at ht
          omega
        have hx := pySplitF_ne_nil sep n (rest.drop (sep.length - 1))
        cases hsplit : pySplitF sep n (rest.drop (sep.length - 1)) with
        | nil => exact absurd hsplit hx
        | cons s ss =>
          have hjoin := ih (rest.drop (sep.length - 1)) hlen
          rw [hsplit] at hjoin
          show joinSep sep ([] :: s :: ss) = c :: rest
          rw [show joinSep sep ([] :: s :: ss) =
              [] ++ sep ++ joinSep sep (s :: ss) from rfl]
          rw [hjoin, hdrop, List.nil_append]
          exact hu
      · cases hx : pySplitF sep n rest with
        | nil => exact absurd hx (pySplitF_ne_nil sep n rest)
        | cons s ss =>
          have hjoin := ih rest (by simp only [List.length_cons] at ht; omega)
          rw [hx] at hjoin
          cases ss with
          | nil =>
            show joinSep sep [c :: s] = c :: rest
            show c :: s = c :: rest
            rw [show joinSep sep [s] = s from rfl] at hjoin
            rw [hjoin]
          | cons s2 ss2 =>
            show joinSep sep ((c :: s) :: s2 :: ss2) = c :: rest
            rw [show joinSep sep ((c :: s) :: s2 :: ss2) =
                (c :: s) ++ sep ++ joinSep sep (s2 :: ss2) from rfl]
            rw [show joinSep sep (s :: s2 :: ss2) =
                s ++ sep ++ joinSep sep (s2 :: ss2) from rfl] at hjoin
            rw [← hjoin]
            simp

theorem joinSep_pySplit (sep t : List Char) (hsep : sep ≠ []) :
    joinSep sep (pySplit sep t) = t :=
  joinSep_pySplitF sep hsep t.length t (Nat.le_refl _)

theorem flatMap_sep_eq_joinSep (sep : List Char) :
    ∀ splits : List (List Char), splits ≠ [] →
      splits.flatMap (fun s => sep ++ s) = sep ++ joinSep sep splits := by
  intro splits
  induction splits with
  | nil => intro h; exact absurd rfl h
  | cons s ss ih =>
    intro _
    cases ss with
    | nil => simp [joinSep]
    | cons s2 ss2 =>
      rw [List.flatMap_cons, ih (by simp)]
      rw [show joinSep sep (s :: s2 :: ss2) =
          s ++ sep ++ joinSep sep (s2 :: ss2) from rfl]
      simp

theorem baseStrip_flatten_sublist (t : List Char) :
    (baseStrip t).flatten.Sublist t := by
  unfold baseStrip
  split
  · exact List.nil_sublist t
  · simpa using pyStrip_sublist t

theorem flushChunk_flatten_sublist (t : List Char) :
    (flushChunk t).flatten.Sublist t := by
  unfold flushChunk
  split
  · exact List.nil_sublist t
  · simpa using pyStrip_sublist t

theorem mergeLoop_flatten (cfg : Splitter)
    (recur : List Char → Option (List (List Char))) (sep : List Char)
    (hrec : ∀ frag r, recur frag = some r → r.flatten.Sublist frag) :
    ∀ splits current cs cur,
      mergeLoop cfg recur sep current splits = some (cs, cur) →
      (cs.flatten ++ cur).Sublist
        (current ++ splits.flatMap (fun s => sep ++ s)) := by
  intro splits
  induction splits with
  | nil =>
    intro current cs cur h
    unfold mergeLoop at h
    cases h
    simp
  | cons split splits ih =>
    intro current cs cur h
    unfold mergeLoop at h
    split at h
    · have hsub := ih _ cs cur h
      refine hsub.trans ?_
      unfold testChunk
      rw [List.flatMap_cons]
      by_cases hcur : current.isEmpty
      · have : current = [] := by
          cases current
          · rfl
          · simp at hcur
        subst this
        simp only [if_pos rfl, List.nil_append, List.append_assoc]
        exact List.sublist_append_right sep _
      · rw [if_neg hcur]
        simp [List.append_assoc]
    · split at h
      · revert h
        cases hs : recur split with
        | none => intro h; simp [hs] at h
        | some subs =>
          cases hm : mergeLoop cfg recur sep [] splits with
          | none => intro h; simp [hs, hm] at h
          | some p =>
            obtain ⟨cs2, cur2⟩ := p
            intro h
            simp only [hs, hm] at h
            have hc1 : flushChunk current ++ subs ++ cs2 = cs :=
              congrArg Prod.fst (Option.some.inj h)
            have hc2 : cur2 = cur := congrArg Prod.snd (Option.some.inj h)
            rw [← hc1, ← hc2]
            have h1 := flushChunk_flatten_sublist current
            have h2 := hrec split subs hs
            have h3 := ih [] cs2 cur2 hm
            rw [List.nil_append] at h3
            rw [List.flatMap_cons]
            have : ((flushChunk current ++ subs ++ cs2).flatten ++ cur2) =
                (flushChunk current).flatten ++
                  (subs.flatten ++ (cs2.flatten ++ cur2)) := by
              simp [List.append_assoc]
            rw [this]
            have hr : (subs.flatten ++ (cs2.flatten ++ cur2)).Sublist
                (sep ++ split ++ splits.flatMap (fun s => sep ++ s)) := by
              have := h2.append h3
              refine this.trans ?_
              rw [List.append_assoc]
              exact List.sublist_append_right sep _
            have := h1.append hr
            refine this.trans ?_
            simp [List.append_assoc]
      · revert h
        cases hm : mergeLoop cfg recur sep split splits with
        | none => intro h; simp [hm] at h
        | some p =>
          obtain ⟨cs2, cur2⟩ := p
          intro h
          simp only [hm] at h
          have hc1 : flushChunk current ++ cs2 = cs :=
            congrArg Prod.fst (Option.some.inj h)
          have hc2 : cur2 = cur := congrArg Prod.snd (Option.some.inj h)
          rw [← hc1, ← hc2]
          have h1 := flushChunk_flatten_sublist current
          have h3 := ih split cs2 cur2 hm
          rw [List.flatMap_cons]
          have : ((flushChunk current ++ cs2).flatten ++ cur2) =
              (flushChunk current).flatten ++ (cs2.flatten ++ cur2) := by
            simp [List.append_assoc]
          rw [this]
          have hr : (cs2.flatten ++ cur2).Sublist
              (sep ++ split ++ splits.flatMap (fun s => sep ++ s)) := by
            refine h3.trans ?_
            rw [List.append_assoc]
            exact List.sublist_append_right sep _
          have := h1.append hr
          refine this.trans ?_
          simp [List.append_assoc]

theorem mergeLoop_flatten_top (cfg : Splitter)
    (recur : List Char → Option (List (List Char))) (sep : List Char)
    (hrec : ∀ frag r, recur frag = some r → r.flatten.Sublist frag)
    (splits : List (List Char)) (cs : List (List Char)) (cur : List Char)
    (h : mergeLoop cfg recur sep [] splits = some (cs, cur)) :
    (cs.flatten ++ cur).Sublist (joinSep sep splits) := by
  cases splits with
  | nil =>
    unfold mergeLoop at h
    have hc1 : ([] : List (List Char)) = cs :=
      congrArg Prod.fst (Option.some.inj h)
    have hc2 : ([] : List Char) = cur := congrArg Prod.snd (Option.some.inj h)
    rw [← hc1, ← hc2]
    simp [joinSep]
  | cons split splits' =>
    unfold mergeLoop at h
    have htc : testChunk [] sep split = split := by simp [testChunk]
    rw [htc] at h
    have hfe : flushChunk ([] : List Char) = [] := rfl
    have hjoin : joinSep sep (split :: splits') =
        split ++ splits'.flatMap (fun s => sep ++ s) := by
      cases splits' with
      | nil => simp [joinSep]
      | cons a b =>
        rw [flatMap_sep_eq_joinSep sep (a :: b) (by simp)]
        rw [show joinSep sep (split :: a :: b) =
            split ++ sep ++ joinSep sep (a :: b) from rfl]
        simp [List.append_assoc]
    rw [hjoin]
    split at h
    · have := mergeLoop_flatten cfg recur sep hrec splits' split cs cur h
      exact this
    · split at h
      · revert h
        cases hs : recur split with
        | none => intro h; simp [hs] at h
        | some subs =>
          cases hm : mergeLoop cfg recur sep [] splits' with
          | none => intro h; simp [hs, hm] at h
          | some p =>
            obtain ⟨cs2, cur2⟩ := p
            intro h
            simp only [hs, hm] at h
            have hc1 : flushChunk [] ++ subs ++ cs2 = cs :=
              congrArg Prod.fst (Option.some.inj h)
            have hc2 : cur2 = cur := congrArg Prod.snd (Option.some.inj h)
            rw [← hc1, ← hc2, hfe, List.nil_append]
            have h2 := hrec split subs hs
            have h3 := mergeLoop_flatten cfg recur sep hrec splits' [] cs2 cur2 hm
            rw [List.nil_append] at h3
            have : ((subs ++ cs2).flatten ++ cur2) =
                subs.flatten ++ (cs2.flatten ++ cur2) := by
              simp [List.append_assoc]
            rw [this]
            exact h2.append h3
      · revert h
        cases hm : mergeLoop cfg recur sep split splits' with
        | none => intro h; simp [hm] at h
        | some p =>
          obtain ⟨cs2, cur2⟩ := p
          intro h
          simp only [hm] at h
          have hc1 : flushChunk [] ++ cs2 = cs :=
            congrArg Prod.fst (Option.some.inj h)
          have hc2 : cur2 = cur := congrArg Prod.snd (Option.some.inj h)
          rw [← hc1, ← hc2, hfe, List.nil_append]
          exact mergeLoop_flatten cfg recur sep hrec splits' split cs2 cur2 hm

theorem sbcF_flatten_sublist (cfg : Splitter) (t : List Char)
    (h0 : cfg.chunk_overlap = 0) :
    ∀ fuel start l, sbcF cfg t fuel start = some l →
      l.flatten.Sublist (t.drop start) := by
  intro fuel
  induction fuel with
  | zero =>
    intro start l h
    unfold sbcF at h
    split at h
    · cases h; simp
    · cases h
  | succ n ih =>
    intro start l h
    unfold sbcF at h
    split at h
    · cases h; simp
    · rename_i hguard
      revert h
      cases hrec : sbcF cfg t n
          (min (start + cfg.chunk_size) t.length - cfg.chunk_overlap) with
      | none => intro h; simp [hrec] at h
      | some rest =>
        intro h
        simp only [hrec] at h
        cases h
        have hse : start ≤ min (start + cfg.chunk_size) t.length := by
          have h1 : start ≤ start + cfg.chunk_size := Nat.le_add_right _ _
          have h2 : start < t.length := Nat.not_le.mp hguard
          exact Nat.le_min.mpr ⟨h1, Nat.le_of_lt h2⟩
        rw [h0, Nat.sub_zero] at hrec
        have h1 := ih _ rest hrec
        have h2 := pyStrip_sublist
          (pySlice t start (min (start + cfg.chunk_size) t.length))
        have hsplit : pySlice t start (min (start + cfg.chunk_size) t.length) ++
            t.drop (min (start + cfg.chunk_size) t.length) = t.drop start := by
          unfold pySlice
          have hdd : t.drop (min (start + cfg.chunk_size) t.length) =
              (t.drop start).drop
                (min (start + cfg.chunk_size) t.length - start) := by
            rw [List.drop_drop]
            congr 1
            omega
          rw [hdd]
          exact List.take_append_drop _ _
        have : ((pyStrip (pySlice t start
              (min (start + cfg.chunk_size) t.length)) :: rest)).flatten =
            pyStrip (pySlice t start (min (start + cfg.chunk_size) t.length)) ++
              rest.flatten := by simp
        rw [this, ← hsplit]
        exact h2.append h1

theorem split_by_character_flatten_sublist (cfg : Splitter) (t : List Char)
    (h0 : cfg.chunk_overlap = 0) (l : List (List Char))
    (h : split_by_character cfg t = some l) : l.flatten.Sublist t := by
  unfold split_by_character at h
  cases hrec : sbcF cfg t (t.length + 1) 0 with
  | none => rw [hrec] at h; cases h
  | some raw =>
    rw [hrec] at h
    cases h
    have h1 := sbcF_flatten_sublist cfg t h0 (t.length + 1) 0 raw hrec
    rw [List.drop_zero] at h1
    exact (sublist_flatten_mono (List.filter_sublist raw)).trans h1

theorem splitRecF_flatten (cfg : Splitter) (h0 : cfg.chunk_overlap = 0) :
    ∀ fuel seps text chunks, splitRecF cfg fuel seps text = some chunks →
      chunks.flatten.Sublist text := by
  intro fuel
  induction fuel with
  | zero => intro seps text chunks h; cases h
  | succ n ih =>
    intro seps text chunks h
    unfold splitRecF at h
    split at h
    · cases h
      exact baseStrip_flatten_sublist text
    · cases seps with
      | nil =>
        cases h
        exact baseStrip_flatten_sublist text
      | cons sep rest =>
        simp only [] at h
        split at h
        · exact split_by_character_flatten_sublist cfg text h0 chunks h
        · rename_i hemp
          split at h
          · rename_i hcont
            revert h
            cases hm : mergeLoop cfg (fun frag => splitRecF cfg n rest frag)
                sep [] (pySplit sep text) with
            | none => intro h; cases h
            | some p =>
              obtain ⟨cs2, cur2⟩ := p
              intro h
              cases h
              rw [apply_overlap_zero cfg h0]
              have htop := mergeLoop_flatten_top cfg _ sep
                (fun frag r hr => ih rest frag r hr)
                (pySplit sep text) cs2 cur2 hm
              have hsepne : sep ≠ [] := fun hs => hemp (by rw [hs]; rfl)
              rw [joinSep_pySplit sep text hsepne] at htop
              have hflat : (cs2 ++ baseStrip cur2).flatten =
                  cs2.flatten ++ (baseStrip cur2).flatten := by simp
              rw [hflat]
              exact ((List.Sublist.refl cs2.flatten).append
                (baseStrip_flatten_sublist cur2)).trans htop
          · exact ih rest text chunks h

/-- C7 counterexample: with `chunk_size = 4, chunk_overlap = 0`,
splitting `"abc \nde"` gives `["abc", "de"]`: the space before the
newline separator is stripped away with the flushed buffer, and no
separator of the hierarchy rejoins the two chunks into the trimmed
input. -/
theorem c7_counterexample :
    split_text ⟨4, 0, DEFAULT_SEPARATORS⟩ (s2l "abc \nde") =
      some [s2l "abc", s2l "de"] ∧
    DEFAULT_SEPARATORS.all
      (fun sep => !((s2l "abc" ++ sep ++ s2l "de") == pyStrip (s2l "abc \nde")))
      = true := by
  refine ⟨by decide, by decide⟩

/-- C7 amended: with `chunk_overlap = 0` the chunk sequence never invents
or duplicates characters — the concatenation of the returned chunks is
an ordered subsequence of the input text — but rejoining with the
removed separators is lossy in general, because each buffer flush
strips whitespace at the chunk boundary. -/
theorem c7_amended (cfg : Splitter) (text : List Char)
    (chunks : List (List Char)) (h0 : cfg.chunk_overlap = 0)
    (h : split_text cfg text = some chunks) :
    chunks.flatten.Sublist text :=
  splitRecF_flatten cfg h0 (cfg.separators.length + 1) cfg.separators text
    chunks h

/-- C7 amended, witness on the counterexample input. -/
theorem c7_amended_witness :
    (List.flatten [s2l "abc", s2l "de"]).Sublist (s2l "abc \nde") :=
  c7_amended ⟨4, 0, DEFAULT_SEPARATORS⟩ (s2l "abc \nde")
    [s2l "abc", s2l "de"] rfl (by decide)

/-
C4.  Dense indices and true totals hold for both ingestion calls; the
`page_chunk_index` key of `ingest_pdf`, however, lives in the extra
dict, where `**extra_metadata` is spread last and can override it.
-/

theorem take_zip_eq {α β : Type} : ∀ (as : List α) (bs : List β) (k : Nat),
    (as.zip bs).take k = (as.take k).zip (bs.take k) := by
  intro as
  induction as with
  | nil => intro bs k; simp
  | cons a as ih =>
    intro bs k
    cases bs with
    | nil => simp
    | cons b bs =>
      cases k with
      | zero => simp
      | succ m => simp [List.zip_cons_cons, ih bs m]

theorem filter_zip_snd_length {α : Type} :
    ∀ (as : List Nat) (bs : List α) (q : α → Bool), as.length = bs.length →
      ((as.zip bs).filter (fun p => q p.2)).length = (bs.filter q).length := by
  intro as
  induction as with
  | nil =>
    intro bs q h
    have : bs = [] := List.length_eq_zero.mp (by simpa using h.symm)
    subst this
    rfl
  | cons a as ih =>
    intro bs q h
    cases bs with
    | nil => simp at h
    | cons b bs =>
      rw [List.zip_cons_cons]
      by_cases hq : q b
      · rw [List.filter_cons_of_pos (by simpa using hq),
          List.filter_cons_of_pos hq]
        simp only [List.length_cons]
        exact congrArg (· + 1) (ih bs q (by simpa using h))
      · rw [List.filter_cons_of_neg (by simpa using hq),
          List.filter_cons_of_neg (by simpa using hq)]
        exact ih bs q (by simpa using h)

theorem enumerate_length {α : Type} (l : List α) :
    (enumerate l).length = l.length := by
  unfold enumerate
  rw [List.length_zip, List.length_range]
  exact Nat.min_self _

theorem enumerate_map_fst {α : Type} (l : List α) :
    (enumerate l).map Prod.fst = List.range l.length := by
  unfold enumerate
  exact List.map_fst_zip _ _ (by rw [List.length_range])

theorem enumerate_getElem {α : Type} (l : List α) (k : Nat)
    (hk : k < (enumerate l).length) :
    (enumerate l)[k] =
      (k, l.get ⟨k, by rw [enumerate_length] at hk; exact hk⟩) := by
  unfold enumerate at hk ⊢
  rw [List.getElem_zip]
  refine Prod.ext ?_ rfl
  simp

theorem pairwise_zip_fst {α : Type} :
    ∀ (as : List Nat) (bs : List α), as.Pairwise (· < ·) →
      (as.zip bs).Pairwise (fun a b : Nat × α => a.1 < b.1) := by
  intro as
  induction as with
  | nil => intro bs _; simp
  | cons a as ih =>
    intro bs h
    cases bs with
    | nil => simp
    | cons b bs =>
      rw [List.zip_cons_cons, List.pairwise_cons]
      obtain ⟨h1, h2⟩ := List.pairwise_cons.mp h
      refine ⟨?_, ih bs h2⟩
      intro p hp
      exact h1 p.1 (List.of_mem_zip hp).1

theorem collectPdfChunks_spec (cfg : Splitter) :
    ∀ (ps : List (Nat × List Char)) (l : List (List Char × Nat × Nat)),
      List.Pairwise (fun a b : Nat × List Char => a.1 < b.1) ps →
      collectPdfChunks cfg ps = some l →
      (∀ e ∈ l, e.2.1 ∈ ps.map Prod.fst) ∧
      (∀ (k : Nat) (hk : k < l.length),
        (l[k]).2.2 =
          ((l.take k).filter (fun e => e.2.1 == (l[k]).2.1)).length) := by
  intro ps
  induction ps with
  | nil =>
    intro l _ h
    unfold collectPdfChunks at h
    cases h
    exact ⟨by simp, by intro k hk; simp at hk⟩
  | cons page rest ih =>
    obtain ⟨pn, pt⟩ := page
    intro l hpw h
    have hhead : ∀ b ∈ rest, pn < b.1 := by
      intro b hb
      exact (List.pairwise_cons.mp hpw).1 b hb
    have htail := (List.pairwise_cons.mp hpw).2
    unfold collectPdfChunks at h
    split at h
    · obtain ⟨ih1, ih2⟩ := ih l htail h
      refine ⟨?_, ih2⟩
      intro e he
      rw [List.map_cons]
      exact List.mem_cons_of_mem _ (ih1 e he)
    · revert h
      cases hsp : split_text cfg (clean_text pt) with
      | none => intro h; cases h
      | some chunks =>
        cases hrec : collectPdfChunks cfg rest with
        | none => intro h; cases h
        | some acc =>
          intro h
          have hl : (enumerate chunks).map (fun p => (p.2, pn, p.1)) ++ acc
              = l := Option.some.inj h
          obtain ⟨ih1, ih2⟩ := ih acc htail hrec
          subst hl
          set tp := (enumerate chunks).map
            (fun p : Nat × List Char => (p.2, pn, p.1)) with htp
          have htp_pn : ∀ e ∈ tp, e.2.1 = pn := by
            intro e he
            obtain ⟨p, _, hpe⟩ := List.mem_map.mp he
            rw [← hpe]
          have hacc_pn : ∀ e ∈ acc, pn < e.2.1 := by
            intro e he
            obtain ⟨b, hb, hbe⟩ := List.mem_map.mp (ih1 e he)
            rw [← hbe]
            exact hhead b hb
          constructor
          · intro e he
            rcases List.mem_append.mp he with h1 | h1
            · rw [List.map_cons, htp_pn e h1]
              exact List.mem_cons_self _ _
            · rw [List.map_cons]
              exact List.mem_cons_of_mem _ (ih1 e h1)
          · intro k hk
            by_cases hkt : k < tp.length
            · have hkc : k < chunks.length := by
                have h2 := hkt
                rw [htp, List.length_map, enumerate_length] at h2
                exact h2
              have htpk : tp[k] = (chunks[k], pn, k) := by
                simp only [htp, List.getElem_map, enumerate_getElem,
                  List.get_eq_getElem]
              have hfst : (tp[k]).2.1 = pn := by rw [htpk]
              have hsnd : (tp[k]).2.2 = k := by rw [htpk]
              rw [List.getElem_append_left hkt, hsnd, hfst,
                List.take_append_of_le_length (Nat.le_of_lt hkt)]
              have hfil : (tp.take k).filter (fun e => e.2.1 == pn) =
                  tp.take k := by
                apply List.filter_eq_self.mpr
                intro e he
                simpa using htp_pn e ((List.take_sublist k tp).subset he)
              rw [hfil, List.length_take]
              omega
            · have hkt' : tp.length ≤ k := Nat.not_lt.mp hkt
              have hklen : k < (tp ++ acc).length := hk
              rw [List.length_append] at hklen
              obtain ⟨j, rfl⟩ : ∃ j, k = tp.length + j :=
                ⟨k - tp.length, by omega⟩
              have hj : j < acc.length := by omega
              clear hklen
              rw [List.getElem_append_right hkt']
              simp only [Nat.add_sub_cancel_left]
              have hpn' : pn < (acc[j]).2.1 :=
                hacc_pn _ (List.getElem_mem hj)
              have hfil0 : tp.filter (fun e =>
                  e.2.1 == (acc[j]).2.1) = [] := by
                apply List.filter_eq_nil_iff.mpr
                intro e he
                have h1 := htp_pn e he
                simp only [h1, beq_iff_eq]
                omega
              rw [List.take_append, List.filter_append, hfil0,
                List.nil_append]
              exact ih2 j hj

theorem pagesEnum_pairwise (pages : List (List Char)) :
    List.Pairwise (fun a b : Nat × List Char => a.1 < b.1) (pagesEnum pages) := by
  unfold pagesEnum
  apply pairwise_zip_fst
  rw [List.pairwise_map]
  exact (List.pairwise_lt_range _).imp (by intro a b h; omega)

theorem docs_enum_spec {α : Type} (l : List α) (f : Nat × α → Document)
    (hidx : ∀ p, (f p).metadata.chunk_index = p.1)
    (htot : ∀ p, (f p).metadata.total_chunks = l.length) :
    ((enumerate l).map f).map (fun d => d.metadata.chunk_index) =
      List.range ((enumerate l).map f).length ∧
    ∀ d ∈ (enumerate l).map f,
      d.metadata.total_chunks = ((enumerate l).map f).length := by
  have hlen : ((enumerate l).map f).length = l.length := by
    rw [List.length_map, enumerate_length]
  constructor
  · rw [hlen, List.map_map]
    have heq : (enumerate l).map ((fun d => d.metadata.chunk_index) ∘ f) =
        (enumerate l).map Prod.fst :=
      List.map_congr_left (fun p _ => hidx p)
    rw [heq, enumerate_map_fst]
  · intro d hd
    obtain ⟨p, _, hpd⟩ := List.mem_map.mp hd
    rw [← hpd, htot p, hlen]

/-- C4 counterexample: an `ingest_pdf` call whose `extra_metadata`
carries its own `"page_chunk_index"` entry: since `**extra_metadata` is
spread last (ingest.py 352-359), the emitted Document records `99`
under the fixed key instead of the page-local ordinal `0` that the same
call records when `extra_metadata` is empty. -/
theorem c4_counterexample :
    (ingest_pdf ⟨500, 50, DEFAULT_SEPARATORS⟩ (fun _ => "u") "T" [s2l "hello"]
        "f.pdf" 10 [("page_chunk_index", PyVal.int 99)]).map
      (List.map (fun d => dictGet d.metadata.extra "page_chunk_index")) =
      some [some (PyVal.int 99)] ∧
    (ingest_pdf ⟨500, 50, DEFAULT_SEPARATORS⟩ (fun _ => "u") "T" [s2l "hello"]
        "f.pdf" 10 []).map
      (List.map (fun d => dictGet d.metadata.extra "page_chunk_index")) =
      some [some (PyVal.int 0)] := by
  refine ⟨by decide, by decide⟩

/-- C4 amended: for both `ingest_text` and `ingest_pdf`, every call
emitting documents stamps `chunk_index` densely in order (`0…N-1`) and
`total_chunks = N`, the true final count across all pages; in the
paginated case each Document's extra records the page-local ordinal
(the number of earlier Documents of the same page) under the fixed key
`"page_chunk_index"` — provided `extra_metadata` does not itself carry
that key, which would silently override it since it is spread last. -/
theorem c4_amended :
    (∀ (cfg : Splitter) (gen : Nat → String) (now : String) (text : List Char)
      (source : String) (em : List (String × PyVal)) (docs : List Document),
      ingest_text cfg gen now text source em = some docs →
      docs.map (fun d => d.metadata.chunk_index) = List.range docs.length ∧
      ∀ d ∈ docs, d.metadata.total_chunks = docs.length) ∧
    (∀ (cfg : Splitter) (gen : Nat → String) (now : String)
      (pages : List (List Char)) (fn : String) (fs : Int)
      (em : List (String × PyVal)) (docs : List Document),
      "page_chunk_index" ∉ em.map Prod.fst →
      ingest_pdf cfg gen now pages fn fs em = some docs →
      (docs.map (fun d => d.metadata.chunk_index) = List.range docs.length ∧
        ∀ d ∈ docs, d.metadata.total_chunks = docs.length) ∧
      ∀ (k : Nat) (hk : k < docs.length),
        dictGet (docs[k]).metadata.extra "page_chunk_index" =
          some (PyVal.int (((docs.take k).filter (fun e =>
            e.metadata.page_number ==
              (docs[k]).metadata.page_number)).length))) := by
  constructor
  · intro cfg gen now text source em docs h
    unfold ingest_text at h
    split at h
    · cases h
      exact ⟨rfl, by intro d hd; simp at hd⟩
    · revert h
      cases hsp : split_text cfg (clean_text text) with
      | none => intro h; cases h
      | some chunks =>
        intro h
        dsimp only [] at h
        by_cases hemp : chunks.isEmpty
        · rw [if_pos hemp] at h
          cases h
          exact ⟨rfl, by intro d hd; simp at hd⟩
        · rw [if_neg hemp] at h
          cases h
          exact docs_enum_spec chunks _ (fun p => rfl) (fun p => rfl)
  · intro cfg gen now pages fn fs em docs hnot h
    unfold ingest_pdf at h
    revert h
    cases hcol : collectPdfChunks cfg (pagesEnum pages) with
    | none => intro h; cases h
    | some ac =>
      intro h
      dsimp only [] at h
      by_cases hemp : ac.isEmpty
      · rw [if_pos hemp] at h
        cases h
        refine ⟨⟨rfl, by intro d hd; simp at hd⟩, ?_⟩
        intro k hk
        simp at hk
      · rw [if_neg hemp] at h
        cases h
        refine ⟨docs_enum_spec ac _ (fun p => rfl) (fun p => rfl), ?_⟩
        intro k hk
        have hk' : k < ac.length := by
          rw [List.length_map, enumerate_length] at hk
          exact hk
        obtain ⟨-, hspec⟩ := collectPdfChunks_spec cfg (pagesEnum pages) ac
          (pagesEnum_pairwise pages) hcol
        have hdk : ((enumerate ac).map
            (pdfBuild gen now fn fs pages.length ac.length em))[k] =
            pdfBuild gen now fn fs pages.length ac.length em
              (k, ac[k]) := by
          simp only [List.getElem_map, enumerate_getElem,
            List.get_eq_getElem]
        rw [hdk]
        have hlook : dictGet (pdfBuild gen now fn fs pages.length ac.length em
              (k, ac[k])).metadata.extra "page_chunk_index" =
            some (PyVal.int (ac[k]).2.2) := by
          show dictGet (dictMerge _ em) _ = _
          rw [dictMerge_get_notin em _ _ hnot]
          simp [dictGet, List.find?]
        rw [hlook]
        refine congrArg (fun n : Nat => some (PyVal.int n)) ?_
        have hpn : (pdfBuild gen now fn fs pages.length ac.length em
            (k, ac[k])).metadata.page_number =
            some ((ac[k]).2.1) := rfl
        rw [hpn, ← List.map_take, List.filter_map, List.length_map]
        have hfc : List.filter ((fun e : Document =>
              e.metadata.page_number == some ((ac[k]).2.1)) ∘
              pdfBuild gen now fn fs pages.length ac.length em)
            ((enumerate ac).take k) =
            List.filter (fun p : Nat × (List Char × Nat × Nat) =>
              p.2.2.1 == (ac[k]).2.1) ((enumerate ac).take k) :=
          List.filter_congr (fun p _ => rfl)
        rw [hfc]
        have henum : (enumerate ac).take k =
            ((List.range ac.length).take k).zip (ac.take k) := by
          unfold enumerate
          exact take_zip_eq _ _ _
        rw [henum]
        have hlens : ((List.range ac.length).take k).length =
            (ac.take k).length := by
          rw [List.length_take, List.length_take, List.length_range]
        have hz := filter_zip_snd_length ((List.range ac.length).take k)
          (ac.take k)
          (fun trip : List Char × Nat × Nat => trip.2.1 == (ac[k]).2.1)
          hlens
        exact (hspec k hk').trans hz.symm

/-- C4 amended, witness: a one-page `ingest_pdf` call and an
`ingest_text` call on concrete input. -/
theorem c4_amended_witness :
    ((ingest_text ⟨500, 50, DEFAULT_SEPARATORS⟩ (fun _ => "u") "T" (s2l "hi")
        "s" []).getD []).map (fun d => d.metadata.chunk_index) =
      List.range ((ingest_text ⟨500, 50, DEFAULT_SEPARATORS⟩ (fun _ => "u")
        "T" (s2l "hi") "s" []).getD []).length ∧
    ((ingest_pdf ⟨500, 50, DEFAULT_SEPARATORS⟩ (fun _ => "u") "T"
        [s2l "hello"] "f.pdf" 10 []).getD []).map
      (fun d => d.metadata.chunk_index) =
      List.range ((ingest_pdf ⟨500, 50, DEFAULT_SEPARATORS⟩ (fun _ => "u")
        "T" [s2l "hello"] "f.pdf" 10 []).getD []).length := by
  constructor
  · exact (c4_amended.1 ⟨500, 50, DEFAULT_SEPARATORS⟩ (fun _ => "u") "T"
      (s2l "hi") "s" [] _ (by decide)).1
  · exact ((c4_amended.2 ⟨500, 50, DEFAULT_SEPARATORS⟩ (fun _ => "u") "T"
      [s2l "hello"] "f.pdf" 10 [] _ (by decide) (by decide)).1).1
